import Mathlib

/-!
# Verification of the SeismoStats Gardner-Knopoff declustering core

A shallow embedding, in Lean 4, of the space-time declustering engine of
the SeismoStats repository:

* `seismostats/analysis/declustering/distance_time_windows.py`
  (`BaseDistanceTimeWindow.__call__`, `GardnerKnopoffWindow._calc`,
  `GruenthalWindow._calc`, `UhrhammerWindow._calc`), modelled over `ℝ`;
* `seismostats/analysis/declustering/dec_gardner_knopoff.py`
  (`GardnerKnopoffType1.decluster`), modelled over `ℚ` so that the
  ordering-sensitive control flow (comparisons, boolean masks, the
  heapsort-based argsort) is exact and executable.

Machine floats are modelled by exact ordered fields (`ℝ` for the closed-form
window formulas, `ℚ` for the clustering engine); every comparison and branch
of the source is reproduced on the nose.  The numpy primitives the source
calls are embedded faithfully: `np.argsort(kind="heapsort")` is the
`npy_aheapsort` algorithm (an indirect 1-based binary-heap sort, translated
here to 0-based indices), `np.flipud` is list reversal, `np.clip` is
`min (max · lo) hi`.

Functions of the repository that are *not* under the provided sources are
modelled from the spec and marked as such in their doc comments
(`haversine`, `decimal_year`, and `BaseDistanceTimeWindow.calc`).
-/

namespace SeismoStats

/-! ## numpy `argsort(kind="heapsort")`: the `npy_aheapsort` algorithm

`np.argsort(v, kind="heapsort")` sorts the index array `[0, …, n-1]` with an
implicit-binary-heap heapsort, comparing indices `p, q` by `v[p] < v[q]`.
The C source works on a 1-based view `a[1..n]`; here positions are 0-based,
so the children of position `i` are `2*i+1` and `2*i+2`.  The comparison is
passed as `lt : ℕ → ℕ → Bool` on the *stored values* (original indices).

The sift-down walk is given explicit fuel (one unit per loop iteration) so
that the definition is structurally recursive and kernel-evaluable; every
call site passes fuel at least `n - i`, which the walk can never exhaust
(the hole index strictly increases), so the fuel-0 branch is unreachable
there, as the lemmas below make precise.
-/

/-- The child of `i` chosen by the sift-down walk: the right child `2*i+2`
when it exists and compares strictly larger than the left child `2*i+1`,
otherwise the left child.  This is the 0-based form of
`if (j < n && LT(v[a[j]], v[a[j+1]])) j += 1;` in `npy_aheapsort`. -/
def pickChild (lt : ℕ → ℕ → Bool) (a : List ℕ) (i n : ℕ) : ℕ :=
  if 2 * i + 2 < n && lt (a.getD (2 * i + 1) 0) (a.getD (2 * i + 2) 0) then
    2 * i + 2
  else
    2 * i + 1

/-- One sift-down of `npy_aheapsort`: the saved value `x` (C variable `tmp`)
is walked down from hole position `i` through the heap prefix `[0, n)` of
`a`, larger children moving up into the hole, and is finally written at the
stopping position (`a[i] = tmp`). -/
def siftDown (lt : ℕ → ℕ → Bool) (x : ℕ) : ℕ → List ℕ → ℕ → ℕ → List ℕ
  | 0, a, i, _ => a.set i x
  | fuel + 1, a, i, n =>
    if 2 * i + 1 < n then
      let j := pickChild lt a i n
      if lt x (a.getD j 0) then
        siftDown lt x fuel (a.set i (a.getD j 0)) j n
      else
        a.set i x
    else
      a.set i x

/-- The heap-construction phase of `npy_aheapsort`: sift-down at positions
`p-1, p-2, …, 0` (the C loop `for (l = n>>1; l > 0; --l)`, 1-based `l`
being 0-based `l-1`); called with `p = n / 2`. -/
def heapifyFrom (lt : ℕ → ℕ → Bool) (n : ℕ) : ℕ → List ℕ → List ℕ
  | 0, a => a
  | p + 1, a => heapifyFrom lt n p (siftDown lt (a.getD p 0) n a p n)

/-- The extraction phase of `npy_aheapsort` (the C loop `for (; n > 1;)`),
parametrised by the live heap size: the root (current maximum) is moved to
the last live position and the displaced last value is sifted down into the
shrunken heap. -/
def extractLoop (lt : ℕ → ℕ → Bool) : ℕ → List ℕ → List ℕ
  | 0, a => a
  | 1, a => a
  | m + 2, a =>
    extractLoop lt (m + 1)
      (siftDown lt (a.getD (m + 1) 0) (m + 1) (a.set (m + 1) (a.getD 0 0)) 0 (m + 1))

/-- The argsort `np.argsort(v, kind="heapsort")`: the index list `[0, …, n-1]` rearranged
by `npy_aheapsort` so that `v` becomes weakly ascending along it.  Heapsort
is *not* a stable sort: equal values do not keep their original relative
order.  `dflt` is the (never reached in-range) out-of-bounds default. -/
def argsort_heapsort {α : Type} [LinearOrder α] (v : List α) (dflt : α) : List ℕ :=
  let n := v.length
  let lt : ℕ → ℕ → Bool := fun p q => decide (v.getD p dflt < v.getD q dflt)
  extractLoop lt n (heapifyFrom lt n (n / 2) (List.range n))

/-- The primitive `np.flipud` on a one-dimensional array: reversal. -/
def flipud {α : Type} (l : List α) : List α := l.reverse

/-- The order `id0 = np.flipud(np.argsort(magnitude, kind="heapsort"))`: the
descending-magnitude visiting order of `GardnerKnopoffType1.decluster`
(line 146), as a list of original catalog indices. -/
def id0 (magnitude : List ℚ) : List ℕ :=
  flipud (argsort_heapsort magnitude 0)

/-- A *stable* ascending argsort, written from the spec's tie-break sentence
(not from the source): indices ordered by magnitude, equal magnitudes
keeping their original relative order — i.e. sorted by the lexicographic
key (value, original index). -/
def stableArgsortAsc (v : List ℚ) : List ℕ :=
  (List.range v.length).insertionSort
    (fun p q => v.getD p 0 < v.getD q 0 ∨ (v.getD p 0 = v.getD q 0 ∧ p ≤ q))

/-! ## Window strategies (`distance_time_windows.py`), over `ℝ`

The three `_calc` variants are pure closed-form maps over the magnitude
array; `np.power(10.0, e)` is `(10:ℝ) ^ e` (real exponent), `np.exp` is
`Real.exp`, `np.sqrt` is `Real.sqrt`, `np.abs` is `|·|`.  The masked
in-place overwrites (`sw_time[magnitude < 6.5] = …`) are rendered as an
elementwise rewrite of the previously computed array, keeping the source's
compute-then-overwrite shape.  (Exact real exponentials have no executable
code, hence this section is noncomputable; the engine below, where all
branching happens, is fully executable over `ℚ`.) -/

noncomputable section RealWindows

/-- The method `GardnerKnopoffWindow._calc` (lines 111-117): space window
`10^(0.1238*m + 0.983)`; time window `10^(0.032*m + 2.7389)` computed for
all entries, then entries with `m < 6.5` overwritten by
`10^(0.5409*m - 0.547)`. -/
def GardnerKnopoffWindow_calc (magnitude : List ℝ) : List ℝ × List ℝ :=
  let sw_space := magnitude.map (fun m => (10 : ℝ) ^ (0.1238 * m + 0.983))
  let sw_time := magnitude.map (fun m => (10 : ℝ) ^ (0.032 * m + 2.7389))
  let sw_time := (magnitude.zip sw_time).map
    (fun p => if p.1 < 6.5 then (10 : ℝ) ^ (0.5409 * p.1 - 0.547) else p.2)
  (sw_space, sw_time)

/-- The method `GruenthalWindow._calc` (lines 128-136): space window
`exp(1.77 + sqrt(0.037 + 1.02*m))`; time window
`|exp(-3.95 + sqrt(0.62 + 17.32*m))|` computed for all entries, then entries
with `m ≥ 6.5` overwritten by `10^(2.8 + 0.024*m)`. -/
def GruenthalWindow_calc (magnitude : List ℝ) : List ℝ × List ℝ :=
  let sw_space := magnitude.map (fun m => Real.exp (1.77 + Real.sqrt (0.037 + 1.02 * m)))
  let sw_time := magnitude.map (fun m => |Real.exp (-3.95 + Real.sqrt (0.62 + 17.32 * m))|)
  let sw_time := (magnitude.zip sw_time).map
    (fun p => if 6.5 ≤ p.1 then (10 : ℝ) ^ (2.8 + 0.024 * p.1) else p.2)
  (sw_space, sw_time)

/-- The method `UhrhammerWindow._calc` (lines 147-150): space window
`exp(-1.024 + 0.804*m)`; time window `exp(-2.87 + 1.235*m)` (no branch). -/
def UhrhammerWindow_calc (magnitude : List ℝ) : List ℝ × List ℝ :=
  (magnitude.map (fun m => Real.exp (-1.024 + 0.804 * m)),
   magnitude.map (fun m => Real.exp (-2.87 + 1.235 * m)))

/-- The three `BaseDistanceTimeWindow` subclasses. -/
inductive WindowVariant : Type
  | gardnerKnopoff
  | gruenthal
  | uhrhammer

/-- Dispatch of the abstract method `_calc` over the three subclasses. -/
def variantCalc : WindowVariant → List ℝ → List ℝ × List ℝ
  | .gardnerKnopoff => GardnerKnopoffWindow_calc
  | .gruenthal => GruenthalWindow_calc
  | .uhrhammer => UhrhammerWindow_calc

/-- The wrapper `BaseDistanceTimeWindow.__call__` (lines 85-100): run the variant's
`_calc`, then — only when the configured `time_cutoff` is *truthy* in
Python's sense, i.e. present and nonzero — clamp every time window with
`np.clip(sw_time, a_min=0, a_max=time_cutoff)`, that is
`min (max t 0) time_cutoff`.  (`self.time_cutoff` is `None` by default;
`if self.time_cutoff:` skips the clamp for both `None` and `0`.)
The final conversion of the day values to `pd.Timedelta` durations is
value-preserving and is not modelled. -/
def windowCall (w : WindowVariant) (time_cutoff : Option ℝ) (magnitude : List ℝ) :
    List ℝ × List ℝ :=
  let r := variantCalc w magnitude
  let sw_time :=
    match time_cutoff with
    | none => r.2
    | some c => if c ≠ 0 then r.2.map (fun t => min (max t 0) c) else r.2
  (r.1, sw_time)

end RealWindows

/-! ## The clustering engine (`dec_gardner_knopoff.py`), over `ℚ`

The engine's per-event arrays (coordinates, decimal years, windows, cluster
ids, shock types) are modelled as total functions from `ℕ`, zero outside
`[0, n)`; exactly the comparisons of the source are performed.  The
great-circle distance primitive `haversine` is not among the provided
sources, so the engine is parametrised by an arbitrary distance function
`dist lon lat lon0 lat0` (the spec, §4.2, only constrains it to be the
haversine formula; the invariants proved below use at most that the
distance from a point to itself is `0`). -/

/-- The sorted working arrays and configuration seen by the clustering loop:
`lon`, `lat`, `year` (decimal years), `swSpace`, `swTime` are the catalog
columns and window arrays already rearranged into descending-magnitude
order (`x[id0]` in the source), `fs` is `config["fs_time_prop"]`. -/
structure GKData where
  n : ℕ
  lon : ℕ → ℚ
  lat : ℕ → ℚ
  year : ℕ → ℚ
  swSpace : ℕ → ℚ
  swTime : ℕ → ℚ
  fs : ℚ
  dist : ℚ → ℚ → ℚ → ℚ → ℚ

/-- The loop state: `cluster_ids` and `shock_types` (zero-initialised,
line 144/155), the cluster counter `clust_index` (line 157), and — for the
statements about seed events — the list of sorted positions at which a
cluster was allocated. -/
structure GKState where
  cluster_ids : ℕ → ℤ
  shock_types : ℕ → ℤ
  clust_index : ℕ
  seeds : List ℕ

/-- The candidate mask of iteration `i` (lines 161-180): position `j` is
selected iff it is in range, still unclustered, its signed time offset
`dt = year[j] - year[i]` lies in `[-swTime[i] * fs, swTime[i]]`, and it is
within `swSpace[i]` distance of event `i`.  (The source computes the
distance only on the time-selected subset — `vsel[vsel] = vsel1[:, 0]` —
which is this conjunction.) -/
def vsel (d : GKData) (cids : ℕ → ℤ) (i j : ℕ) : Bool :=
  decide (j < d.n) && decide (cids j = 0)
    && decide (-(d.swTime i * d.fs) ≤ d.year j - d.year i)
    && decide (d.year j - d.year i ≤ d.swTime i)
    && decide (d.dist (d.lon j) (d.lat j) (d.lon i) (d.lat i) ≤ d.swSpace i)

/-- One iteration of the clustering loop (lines 159-192).  If position `i`
is already clustered nothing happens.  Otherwise, if the candidate mask
contains no position other than `i` itself (`any(temp_vsel)` false) nothing
happens; else every selected position receives cluster id
`clust_index + 1` and shock type `1`, the selected positions strictly
before `i` in time (`dt < 0`, excluding `i`) are overwritten to `-1`,
position `i` is forced to shock type `0`, and the counter advances. -/
def gkStep (d : GKData) (st : GKState) (i : ℕ) : GKState :=
  if st.cluster_ids i = 0 then
    if ((List.range d.n).filter
        (fun j => vsel d st.cluster_ids i j && decide (j ≠ i))).isEmpty then
      st
    else
      { cluster_ids := fun j =>
          if vsel d st.cluster_ids i j then (st.clust_index + 1 : ℤ)
          else st.cluster_ids j,
        shock_types := fun j =>
          if j = i then 0
          else if vsel d st.cluster_ids i j then
            (if d.year j - d.year i < 0 then -1 else 1)
          else st.shock_types j,
        clust_index := st.clust_index + 1,
        seeds := st.seeds ++ [i] }
  else
    st

/-- The static space-time window test of iteration `i` against position
`j` (the non-state part of the candidate mask): `j`'s time offset lies in
`[-swTime[i]·fs, swTime[i]]` and `j` is within `swSpace[i]` of `i`. -/
def inWindow (d : GKData) (i j : ℕ) : Prop :=
  -(d.swTime i * d.fs) ≤ d.year j - d.year i ∧
    d.year j - d.year i ≤ d.swTime i ∧
    d.dist (d.lon j) (d.lat j) (d.lon i) (d.lat i) ≤ d.swSpace i

/-- The zero-initialised state. -/
def gkInit : GKState :=
  { cluster_ids := fun _ => 0, shock_types := fun _ => 0,
    clust_index := 0, seeds := [] }

/-- The loop `for i in range(0, neq - 1)` (line 158): it visits every sorted
position except the last (smallest-magnitude) one. -/
def gkLoop (d : GKData) : GKState :=
  (List.range (d.n - 1)).foldl (gkStep d) gkInit

/-- Reading a catalog column in sorted order: `x[id0]`.  Positions at or
beyond the array length read `0` (no such read is reachable in range). -/
def sortedAccess (xs : List ℚ) (ord : List ℕ) (j : ℕ) : ℚ :=
  if j < ord.length then xs.getD (ord.getD j 0) 0 else 0

/-- Modelled from the spec: `BaseDistanceTimeWindow.calc`, the wrapper the
engine invokes (line 139) with the configuration's cutoff, is not among the
provided sources; per spec §4.1 it computes the variant's windows and
applies the optional cutoff-clamp, exactly as the in-source
`BaseDistanceTimeWindow.__call__` does with its constructor-stored cutoff.
Here over `ℚ`, for an abstract elementwise window formula `wf`. -/
def windowCalcQ (wf : ℚ → ℚ × ℚ) (time_cutoff : Option ℚ) (m : ℚ) : ℚ × ℚ :=
  ((wf m).1,
   match time_cutoff with
   | none => (wf m).2
   | some c => if c ≠ 0 then min (max (wf m).2 0) c else (wf m).2)

/-- The configuration dictionary `GKConfig` of `decluster`: the window
strategy (an abstract elementwise magnitude-to-(space, time) formula over
`ℚ`), `fs_time_prop`, and the optional `time_cutoff`. -/
structure GKConfig where
  time_distance_window : ℚ → ℚ × ℚ
  fs_time_prop : ℚ
  time_cutoff : Option ℚ

/-- The sorted working data assembled by `decluster` (lines 135-154):
window arrays computed on the unsorted magnitudes, then all per-event
arrays rearranged by `id0`. -/
def declusterData (mags lons lats years : List ℚ) (cfg : GKConfig)
    (dist : ℚ → ℚ → ℚ → ℚ → ℚ) : GKData :=
  let ord := id0 mags
  { n := mags.length,
    lon := sortedAccess lons ord,
    lat := sortedAccess lats ord,
    year := sortedAccess years ord,
    swSpace := sortedAccess
      (mags.map (fun m => (windowCalcQ cfg.time_distance_window cfg.time_cutoff m).1)) ord,
    swTime := sortedAccess
      (mags.map (fun m => (windowCalcQ cfg.time_distance_window cfg.time_cutoff m).2)) ord,
    fs := cfg.fs_time_prop,
    dist := dist }

/-- The core of `decluster` once the decimal-year column `years` is in hand
(lines 135-200): run the loop on the sorted arrays, then restore the
original order via `id1 = np.argsort(eqid, kind="heapsort")` — `eqid` being
`np.arange(neq)[id0] = id0` — and index both result arrays by `id1`. -/
def declusterRun (mags lons lats years : List ℚ) (cfg : GKConfig)
    (dist : ℚ → ℚ → ℚ → ℚ → ℚ) : List ℤ × List ℤ :=
  let n := mags.length
  let st := gkLoop (declusterData mags lons lats years cfg dist)
  let sortedCids := (List.range n).map st.cluster_ids
  let sortedShocks := (List.range n).map st.shock_types
  let id1 := argsort_heapsort (id0 mags) 0
  (id1.map (fun t => sortedCids.getD t 0), id1.map (fun t => sortedShocks.getD t 0))

/-- Modelled from the spec: `decimal_year` (in
`seismostats.analysis.declustering.utils`, not among the provided sources)
converts a (year, month, day) triple to the year plus the fractional
day-of-year divided by a fixed 365 (spec §4.3; non-leap month lengths). -/
def dayOfYear (month day : ℤ) : ℤ :=
  day + (if month ≥ 2 then 31 else 0) + (if month ≥ 3 then 28 else 0)
    + (if month ≥ 4 then 31 else 0) + (if month ≥ 5 then 30 else 0)
    + (if month ≥ 6 then 31 else 0) + (if month ≥ 7 then 30 else 0)
    + (if month ≥ 8 then 31 else 0) + (if month ≥ 9 then 31 else 0)
    + (if month ≥ 10 then 30 else 0) + (if month ≥ 11 then 31 else 0)
    + (if month ≥ 12 then 30 else 0)

/-- Modelled from the spec: the decimal-year coordinate (spec §4.3). -/
def decimal_year (year month day : ℤ) : ℚ :=
  (year : ℚ) + (dayOfYear month day : ℚ) / 365

/-- The catalog dataframe as `decluster` reads it: the mandatory columns and
the two optional time representations — `year`/`month`/`day` columns
(`Option` records column presence) or a `time` column, a timestamp modelled
by the pair (year, day-of-year) that lines 128-129 extract from it. -/
structure Catalogue where
  magnitude : List ℚ
  longitude : List ℚ
  latitude : List ℚ
  year : Option (List ℤ)
  month : Option (List ℤ)
  day : Option (List ℤ)
  time : Option (List (ℤ × ℤ))

/-- The decimal-year column of a catalog, when one can be built: from the
`year`/`month`/`day` columns when all three are present (lines 115-126),
else from the `time` column as `time.dt.year + time.dt.dayofyear / 365`
(lines 127-129). -/
def yearDecOf (cat : Catalogue) : Option (List ℚ) :=
  match cat.year, cat.month, cat.day with
  | some ys, some ms, some ds =>
    some ((ys.zip (ms.zip ds)).map (fun p => decimal_year p.1 p.2.1 p.2.2))
  | _, _, _ =>
    match cat.time with
    | some ts => some (ts.map (fun p => (p.1 : ℚ) + (p.2 : ℚ) / 365))
    | none => none

/-- The engine `GardnerKnopoffType1.decluster` (lines 80-200).  The schema check: with
all of `year`, `month`, `day` present the decimal years come from them;
otherwise, with a `time` column present, from it; otherwise a `ValueError`
is raised (lines 115-133) and no result is produced.  The great-circle
primitive `haversine` is passed in as `dist` (see `GKData`). -/
def GardnerKnopoffType1.decluster (cat : Catalogue) (cfg : GKConfig)
    (dist : ℚ → ℚ → ℚ → ℚ → ℚ) : Except String (List ℤ × List ℤ) :=
  if cat.year.isSome ∧ cat.month.isSome ∧ cat.day.isSome then
    .ok (declusterRun cat.magnitude cat.longitude cat.latitude
      ((cat.year.getD []).zip ((cat.month.getD []).zip (cat.day.getD []))
        |>.map (fun p => decimal_year p.1 p.2.1 p.2.2))
      cfg dist)
  else
    match cat.time with
    | some ts =>
      .ok (declusterRun cat.magnitude cat.longitude cat.latitude
        (ts.map (fun p => (p.1 : ℚ) + (p.2 : ℚ) / 365)) cfg dist)
    | none =>
      .error "Catalogue must contain either year, month, day columns or a time column"

/-- Equality of `decluster` results is decidable (needed to evaluate the
engine on the concrete fixtures below). -/
instance {α β : Type} [DecidableEq α] [DecidableEq β] :
    DecidableEq (Except α β) := fun a b =>
  match a, b with
  | .ok x, .ok y =>
    if h : x = y then isTrue (by rw [h]) else isFalse (by simpa using h)
  | .error x, .error y =>
    if h : x = y then isTrue (by rw [h]) else isFalse (by simpa using h)
  | .ok _, .error _ => isFalse (fun h => by cases h)
  | .error _, .ok _ => isFalse (fun h => by cases h)

/-! ## Verification scaffolding and concrete fixtures -/

/-- The relation `Desc i p`: position `p` lies in the implicit-binary-heap subtree rooted
at `i` (children of `c` are `2c+1` and `2c+2`).  Proof scaffolding for the
heapsort verification. -/
inductive Desc (i : ℕ) : ℕ → Prop
  | refl : Desc i i
  | left : ∀ {c}, Desc i c → Desc i (2 * c + 1)
  | right : ∀ {c}, Desc i c → Desc i (2 * c + 2)

/-- The distance function of a catalog whose events are all co-located:
the haversine of two coincident points is `0`. -/
def distZero : ℚ → ℚ → ℚ → ℚ → ℚ := fun _ _ _ _ => 0

/-- A configuration with a constant window strategy (space 1 km, time 1),
`fs_time_prop = 1`, no cutoff — what any elementwise variant produces on a
catalog whose magnitudes are all equal. -/
def cfgTie : GKConfig := ⟨fun _ => (1, 1), 1, none⟩

/-- The same constant-window configuration with `fs_time_prop = 0`. -/
def cfgFs0 : GKConfig := ⟨fun _ => (1, 1), 0, none⟩

/-- Two co-located magnitude-5 events one day apart (year/month/day
columns). -/
def catTie : Catalogue :=
  ⟨[5, 5], [0, 0], [0, 0], some [2000, 2000], some [1, 1], some [1, 2], none⟩

/-- The catalog `catTie` with its two rows swapped. -/
def catTieSwapped : Catalogue :=
  ⟨[5, 5], [0, 0], [0, 0], some [2000, 2000], some [1, 1], some [2, 1], none⟩

/-- Two co-located events of distinct magnitudes 5 and 4, one day apart. -/
def catPair : Catalogue :=
  ⟨[5, 4], [0, 0], [0, 0], some [2000, 2000], some [1, 1], some [1, 2], none⟩

/-! ## `npy_aheapsort`: basic shape lemmas and the permutation property -/

theorem pickChild_gt (lt : ℕ → ℕ → Bool) (a : List ℕ) (i n : ℕ) :
    i < pickChild lt a i n := by
  unfold pickChild
  split <;> omega

theorem pickChild_lt_n (lt : ℕ → ℕ → Bool) (a : List ℕ) (i n : ℕ)
    (h : 2 * i + 1 < n) : pickChild lt a i n < n := by
  unfold pickChild
  split
  · rename_i hc
    exact (Bool.and_eq_true _ _).mp hc |>.1 |> of_decide_eq_true
  · exact h

theorem siftDown_length (lt : ℕ → ℕ → Bool) (x : ℕ) :
    ∀ fuel a i n, (siftDown lt x fuel a i n).length = a.length := by
  intro fuel
  induction fuel with
  | zero => intro a i n; simp [siftDown]
  | succ fuel ih =>
    intro a i n
    simp only [siftDown]
    split
    · split
      · rw [ih]; simp
      · simp
    · simp

/-- Setting position `p` to its own value changes nothing. -/
theorem set_getD_self : ∀ (a : List ℕ) (p : ℕ), a.set p (a.getD p 0) = a := by
  intro a
  induction a with
  | nil => intro p; cases p <;> rfl
  | cons h t ih =>
    intro p
    cases p with
    | zero => rfl
    | succ p => simpa [List.set, List.getD] using ih p

/-- A value pulled to the front from position `k` is a transposition:
`l[k] :: l.set k x` is a permutation of `x :: l`. -/
theorem getD_cons_set_perm : ∀ (t : List ℕ) (k : ℕ) (x : ℕ), k < t.length →
    ((t.getD k 0) :: t.set k x).Perm (x :: t) := by
  intro t
  induction t with
  | nil => intro k x h; simp at h
  | cons h t ih =>
    intro k x hk
    cases k with
    | zero => exact List.Perm.swap _ _ _
    | succ k =>
      have hk' : k < t.length := by simpa using hk
      have e1 : ((h :: t).getD (k + 1) 0 :: (h :: t).set (k + 1) x)
          = (t.getD k 0 :: h :: t.set k x) := by simp [List.getD]
      rw [e1]
      refine (List.Perm.swap _ _ _).trans ?_
      exact (((ih k x hk').cons h)).trans (List.Perm.swap _ _ _)

/-- Reading back the freshly written value. -/
theorem getD_set_self_eq : ∀ (t : List ℕ) (i x : ℕ), i < t.length →
    (t.set i x).getD i 0 = x := by
  intro t
  induction t with
  | nil => intro i x h; simp at h
  | cons h t ih =>
    intro i x hi
    cases i with
    | zero => rfl
    | succ i => simpa [List.getD] using ih i x (by simpa using hi)

/-- The two-write shape of a sift-down step is, up to permutation, a single
write of `x` at the hole. -/
theorem set_set_getD_perm : ∀ (a : List ℕ) (i j x : ℕ), i ≠ j →
    i < a.length → j < a.length →
    ((a.set i (a.getD j 0)).set j x).Perm (a.set i x) := by
  intro a
  induction a with
  | nil => intro i j x _ h; simp at h
  | cons h t ih =>
    intro i j x hne hi hj
    cases i with
    | zero =>
      cases j with
      | zero => exact absurd rfl hne
      | succ j =>
        have hj' : j < t.length := by simpa using hj
        have e1 : (((h :: t).set 0 ((h :: t).getD (j + 1) 0)).set (j + 1) x)
            = (t.getD j 0 :: t.set j x) := by simp [List.getD]
        rw [e1]
        show (t.getD j 0 :: t.set j x).Perm ((h :: t).set 0 x)
        exact getD_cons_set_perm t j x hj'
    | succ i =>
      cases j with
      | zero =>
        have hi' : i < t.length := by simpa using hi
        have base := getD_cons_set_perm (t.set i x) i h
          (by simpa using hi')
        rw [getD_set_self_eq t i x hi', List.set_set] at base
        simpa [List.getD] using base
      | succ j =>
        have hne' : i ≠ j := fun hh => hne (by rw [hh])
        have hi' : i < t.length := by simpa using hi
        have hj' : j < t.length := by simpa using hj
        simpa [List.getD] using (ih i j x hne' hi' hj').cons h

theorem siftDown_perm (lt : ℕ → ℕ → Bool) (x : ℕ) :
    ∀ fuel a i n, i < n → n ≤ a.length → n ≤ fuel + i →
    (siftDown lt x fuel a i n).Perm (a.set i x) := by
  intro fuel
  induction fuel with
  | zero => intro a i n hi hn hf; exact List.Perm.refl _
  | succ fuel ih =>
    intro a i n hi hn hf
    simp only [siftDown]
    split
    · rename_i hchild
      split
      · rename_i hlt
        have hij : i < pickChild lt a i n := pickChild_gt lt a i n
        have hjn : pickChild lt a i n < n := pickChild_lt_n lt a i n hchild
        refine (ih _ (pickChild lt a i n) n hjn (by simpa using hn)
          (by omega)).trans ?_
        exact set_set_getD_perm a i (pickChild lt a i n) x (by omega)
          (lt_of_lt_of_le hi hn) (lt_of_lt_of_le hjn hn)
      · exact List.Perm.refl _
    · exact List.Perm.refl _

theorem heapifyFrom_length (lt : ℕ → ℕ → Bool) (n : ℕ) :
    ∀ p a, (heapifyFrom lt n p a).length = a.length := by
  intro p
  induction p with
  | zero => intro a; rfl
  | succ p ih => intro a; rw [heapifyFrom, ih, siftDown_length]

theorem heapifyFrom_perm (lt : ℕ → ℕ → Bool) (n : ℕ) :
    ∀ p a, 2 * p ≤ n → n ≤ a.length → (heapifyFrom lt n p a).Perm a := by
  intro p
  induction p with
  | zero => intro a _ _; exact List.Perm.refl _
  | succ p ih =>
    intro a hp hn
    rw [heapifyFrom]
    have hpn : p < n := by omega
    have h1 : (siftDown lt (a.getD p 0) n a p n).Perm (a.set p (a.getD p 0)) :=
      siftDown_perm lt _ n a p n hpn hn (by omega)
    rw [set_getD_self] at h1
    exact (ih _ (by omega) (by rw [siftDown_length]; exact hn)).trans h1

theorem extractLoop_length (lt : ℕ → ℕ → Bool) :
    ∀ m a, (extractLoop lt m a).length = a.length := by
  intro m
  induction m using Nat.strong_induction_on with
  | _ m ih =>
    match m with
    | 0 => intro a; rfl
    | 1 => intro a; rfl
    | m + 2 =>
      intro a
      rw [extractLoop, ih (m + 1) (by omega), siftDown_length]
      simp

theorem extractLoop_perm (lt : ℕ → ℕ → Bool) :
    ∀ m a, m ≤ a.length → (extractLoop lt m a).Perm a := by
  intro m
  induction m using Nat.strong_induction_on with
  | _ m ih =>
    match m with
    | 0 => intro a _; exact List.Perm.refl _
    | 1 => intro a _; exact List.Perm.refl _
    | m + 2 =>
      intro a hm
      rw [extractLoop]
      have hlen : m + 1 < a.length := by omega
      have h1 : (siftDown lt (a.getD (m + 1) 0) (m + 1)
          (a.set (m + 1) (a.getD 0 0)) 0 (m + 1)).Perm
          ((a.set (m + 1) (a.getD 0 0)).set 0 (a.getD (m + 1) 0)) :=
        siftDown_perm lt _ (m + 1) _ 0 (m + 1) (by omega)
          (by rw [List.length_set]; omega) (by omega)
      have h2 : ((a.set (m + 1) (a.getD 0 0)).set 0 (a.getD (m + 1) 0)).Perm
          (a.set (m + 1) (a.getD (m + 1) 0)) :=
        set_set_getD_perm a (m + 1) 0 (a.getD (m + 1) 0) (by omega) hlen (by omega)
      rw [set_getD_self] at h2
      refine (ih (m + 1) (by omega) _ ?_).trans (h1.trans h2)
      rw [siftDown_length, List.length_set]
      omega

/-- The argsort `np.argsort(v, kind="heapsort")` returns a permutation of
`[0, …, n-1]`. -/
theorem argsort_heapsort_perm {α : Type} [LinearOrder α] (v : List α) (dflt : α) :
    (argsort_heapsort v dflt).Perm (List.range v.length) := by
  unfold argsort_heapsort
  refine (extractLoop_perm _ _ _ ?_).trans (heapifyFrom_perm _ _ _ _ (by omega) ?_)
  · rw [heapifyFrom_length, List.length_range]
  · rw [List.length_range]

theorem argsort_heapsort_length {α : Type} [LinearOrder α] (v : List α) (dflt : α) :
    (argsort_heapsort v dflt).length = v.length := by
  unfold argsort_heapsort
  rw [extractLoop_length, heapifyFrom_length, List.length_range]

theorem id0_length (mags : List ℚ) : (id0 mags).length = mags.length := by
  unfold id0 flipud
  rw [List.length_reverse, argsort_heapsort_length]

theorem id0_perm (mags : List ℚ) : (id0 mags).Perm (List.range mags.length) :=
  (List.reverse_perm _).trans (argsort_heapsort_perm mags 0)

/-! ## `npy_aheapsort`: heap structure and the sortedness property

The comparison `lt` is abstract here; the two hypotheses used —
`lt` is asymmetric, and `fun p q => lt q p = false` is transitive — hold
for the instantiation `lt p q = decide (v[p] < v[q])` over any linear
order. -/

theorem Desc.ge {i p : ℕ} (h : Desc i p) : i ≤ p := by
  induction h with
  | refl => exact le_refl i
  | left _ ih => omega
  | right _ ih => omega

theorem Desc.trans' {i j p : ℕ} (h1 : Desc i j) (h2 : Desc j p) : Desc i p := by
  induction h2 with
  | refl => exact h1
  | left _ ih => exact Desc.left ih
  | right _ ih => exact Desc.right ih

theorem Desc_zero : ∀ p, Desc 0 p := by
  intro p
  induction p using Nat.strong_induction_on with
  | _ p ih =>
    match p with
    | 0 => exact Desc.refl
    | p + 1 =>
      have hp : Desc 0 (p / 2) := ih (p / 2) (by omega)
      rcases Nat.even_or_odd p with ⟨c, hc⟩ | ⟨c, hc⟩
      · have : p + 1 = 2 * (p / 2) + 1 := by omega
        rw [this]; exact Desc.left hp
      · have : p + 1 = 2 * (p / 2) + 2 := by omega
        rw [this]; exact Desc.right hp

/-- Inversion: a strict descendant is a child of a descendant. -/
theorem Desc.inv {i c : ℕ} (h : Desc i c) (hne : c ≠ i) :
    ∃ p, Desc i p ∧ (c = 2 * p + 1 ∨ c = 2 * p + 2) := by
  cases h with
  | refl => exact absurd rfl hne
  | left h => exact ⟨_, h, Or.inl rfl⟩
  | right h => exact ⟨_, h, Or.inr rfl⟩

/-- A strict descendant is at least the left child of the root. -/
theorem Desc.child_le {i c : ℕ} (h : Desc i c) (hne : c ≠ i) :
    2 * i + 1 ≤ c := by
  obtain ⟨p, hp, hc⟩ := h.inv hne
  have := hp.ge
  omega

/-- The parent of a strict descendant is a descendant. -/
theorem Desc.parent {i c : ℕ} (h : Desc i c) (hne : c ≠ i) :
    Desc i ((c - 1) / 2) := by
  obtain ⟨p, hp, hc⟩ := h.inv hne
  have : (c - 1) / 2 = p := by omega
  rw [this]; exact hp

theorem not_desc_of_lt {i p : ℕ} (h : p < i) : ¬ Desc i p :=
  fun hd => absurd hd.ge (by omega)

/-- Reading a written list away from the write. -/
theorem getD_set_ne : ∀ (a : List ℕ) (i p x : ℕ), p ≠ i →
    (a.set i x).getD p 0 = a.getD p 0 := by
  intro a
  induction a with
  | nil => intro i p x _; cases i <;> rfl
  | cons h t ih =>
    intro i p x hpi
    cases i with
    | zero =>
      cases p with
      | zero => exact absurd rfl hpi
      | succ p => rfl
    | succ i =>
      cases p with
      | zero => rfl
      | succ p => simpa [List.getD] using ih i p x (by omega)

/-- The walk `siftDown` touches only descendants of the hole. -/
theorem siftDown_getD_of_not_desc (lt : ℕ → ℕ → Bool) (x : ℕ) :
    ∀ fuel a i n p, ¬ Desc i p →
      (siftDown lt x fuel a i n).getD p 0 = a.getD p 0 := by
  intro fuel
  induction fuel with
  | zero =>
    intro a i n p hp
    exact getD_set_ne a i p x (fun hh => hp (hh ▸ Desc.refl))
  | succ fuel ih =>
    intro a i n p hp
    have hpi : p ≠ i := fun hh => hp (hh ▸ Desc.refl)
    simp only [siftDown]
    split
    · rename_i hchild
      split
      · have hdij : Desc i (pickChild lt a i n) := by
          unfold pickChild
          split
          · exact Desc.right Desc.refl
          · exact Desc.left Desc.refl
        have hdp : ¬ Desc (pickChild lt a i n) p :=
          fun hd => hp (hdij.trans' hd)
        rw [ih _ _ _ _ hdp]
        exact getD_set_ne a i p _ hpi
      · exact getD_set_ne a i p x hpi
    · exact getD_set_ne a i p x hpi

/-- The walk `siftDown` touches only positions below the bound. -/
theorem siftDown_getD_of_ge (lt : ℕ → ℕ → Bool) (x : ℕ) :
    ∀ fuel a i n p, i < n → n ≤ p →
      (siftDown lt x fuel a i n).getD p 0 = a.getD p 0 := by
  intro fuel
  induction fuel with
  | zero =>
    intro a i n p hi hn
    exact getD_set_ne a i p x (by omega)
  | succ fuel ih =>
    intro a i n p hi hn
    simp only [siftDown]
    split
    · rename_i hchild
      split
      · rw [ih _ _ _ _ (pickChild_lt_n lt a i n hchild) hn]
        exact getD_set_ne a i p _ (by omega)
      · exact getD_set_ne a i p x (by omega)
    · exact getD_set_ne a i p x (by omega)

/-- Inside a subtree whose internal edges all satisfy the heap inequality,
every value is dominated by the root's. -/
theorem subtree_le_root (lt : ℕ → ℕ → Bool)
    (hneg : ∀ p q r, lt q p = false → lt r q = false → lt r p = false)
    (hirr : ∀ p, lt p p = false)
    (a : List ℕ) (n r : ℕ)
    (hedges : ∀ c, c < n → Desc r c → c ≠ r →
      lt (a.getD ((c - 1) / 2) 0) (a.getD c 0) = false) :
    ∀ c, c < n → Desc r c → lt (a.getD r 0) (a.getD c 0) = false := by
  intro c hcn hdesc
  induction hdesc with
  | refl => exact hirr _
  | @left c' hd ih =>
    have hc' : c' < n := by omega
    have hne : 2 * c' + 1 ≠ r := by
      have := hd.ge; omega
    have hedge := hedges (2 * c' + 1) hcn (Desc.left hd) hne
    have hpar : (2 * c' + 1 - 1) / 2 = c' := by omega
    rw [hpar] at hedge
    exact hneg _ _ _ hedge (ih hc')
  | @right c' hd ih =>
    have hc' : c' < n := by omega
    have hne : 2 * c' + 2 ≠ r := by
      have := hd.ge; omega
    have hedge := hedges (2 * c' + 2) hcn (Desc.right hd) hne
    have hpar : (2 * c' + 2 - 1) / 2 = c' := by omega
    rw [hpar] at hedge
    exact hneg _ _ _ hedge (ih hc')

/-- The sift-down walk never writes a value exceeding an upper bound that
dominates both the inserted value and the subtree it walks through. -/
theorem siftDown_bound (lt : ℕ → ℕ → Bool) (x ub : ℕ) :
    ∀ fuel a i n, i < n → n ≤ a.length → n ≤ fuel + i →
      lt ub x = false →
      (∀ c, c < n → Desc i c → c ≠ i → lt ub (a.getD c 0) = false) →
      ∀ c, c < n → Desc i c →
        lt ub ((siftDown lt x fuel a i n).getD c 0) = false := by
  intro fuel
  induction fuel with
  | zero => intro a i n hi _ hf; omega
  | succ fuel ih =>
    intro a i n hi hlen hf hubx hsub c hcn hdesc
    simp only [siftDown]
    split
    · rename_i hchild
      set j := pickChild lt a i n with hj
      have hij : i < j := pickChild_gt lt a i n
      have hjn : j < n := pickChild_lt_n lt a i n hchild
      have hdij : Desc i j := by
        rw [hj]; unfold pickChild
        split
        · exact Desc.right Desc.refl
        · exact Desc.left Desc.refl
      split
      · rename_i hlt
        by_cases hdj : Desc j c
        · refine ih _ j n hjn (by rw [List.length_set]; exact hlen) (by omega)
            hubx ?_ c hcn hdj
          intro c' hc' hdc' hne'
          rw [getD_set_ne _ _ _ _ (by have := hdc'.ge; omega)]
          exact hsub c' hc' (hdij.trans' hdc') (by have := hdc'.ge; omega)
        · rw [siftDown_getD_of_not_desc lt x fuel _ j n c hdj]
          by_cases hci : c = i
          · subst hci
            rw [getD_set_self_eq _ _ _ (by omega)]
            exact hsub j hjn hdij (by omega)
          · rw [getD_set_ne _ _ _ _ hci]
            exact hsub c hcn hdesc hci
      · by_cases hci : c = i
        · subst hci
          rw [getD_set_self_eq _ _ _ (by omega)]
          exact hubx
        · rw [getD_set_ne _ _ _ _ hci]
          exact hsub c hcn hdesc hci
    · by_cases hci : c = i
      · subst hci
        rw [getD_set_self_eq _ _ _ (by omega)]
        exact hubx
      · rw [getD_set_ne _ _ _ _ hci]
        exact hsub c hcn hdesc hci

/-- The two comparisons `pickChild` performs dominate the unchosen child:
the value at the chosen child is at least the value at the other child. -/
theorem pickChild_dominates (lt : ℕ → ℕ → Bool)
    (hasym : ∀ p q, lt p q = true → lt q p = false)
    (a : List ℕ) (i n : ℕ) (o : ℕ) (ho : o < n)
    (hoc : o = 2 * i + 1 ∨ o = 2 * i + 2) (hne : o ≠ pickChild lt a i n) :
    lt (a.getD (pickChild lt a i n) 0) (a.getD o 0) = false := by
  by_cases hcond :
      (decide (2 * i + 2 < n) && lt (a.getD (2 * i + 1) 0) (a.getD (2 * i + 2) 0)) = true
  · have hpc : pickChild lt a i n = 2 * i + 2 := by
      unfold pickChild; rw [if_pos hcond]
    rw [hpc] at hne ⊢
    have hob : o = 2 * i + 1 := by
      rcases hoc with h | h
      · exact h
      · exact absurd h hne
    subst hob
    exact hasym _ _ ((Bool.and_eq_true _ _).mp hcond).2
  · have hpc : pickChild lt a i n = 2 * i + 1 := by
      unfold pickChild; rw [if_neg hcond]
    rw [hpc] at hne ⊢
    have hob : o = 2 * i + 2 := by
      rcases hoc with h | h
      · exact absurd h hne
      · exact h
    subst hob
    cases hb : lt (a.getD (2 * i + 1) 0) (a.getD (2 * i + 2) 0) with
    | false => rfl
    | true =>
      exfalso
      apply hcond
      rw [Bool.and_eq_true]
      exact ⟨by simpa using ho, hb⟩

theorem pickChild_cases (lt : ℕ → ℕ → Bool) (a : List ℕ) (i n : ℕ) :
    pickChild lt a i n = 2 * i + 1 ∨ pickChild lt a i n = 2 * i + 2 := by
  unfold pickChild
  split
  · exact Or.inr rfl
  · exact Or.inl rfl

/-- The heap-repair property of the sift-down walk: if every edge strictly
inside the subtree of the hole `i` (i.e. not out of `i` itself) satisfies
the heap inequality, then after sifting `x` down from `i` every edge of the
whole subtree does. -/
theorem siftDown_heap (lt : ℕ → ℕ → Bool)
    (hasym : ∀ p q, lt p q = true → lt q p = false)
    (hneg : ∀ p q r, lt q p = false → lt r q = false → lt r p = false) (x : ℕ) :
    ∀ fuel a i n, i < n → n ≤ a.length → n ≤ fuel + i →
      (∀ c, c < n → Desc i c → c ≠ i → (c - 1) / 2 ≠ i →
        lt (a.getD ((c - 1) / 2) 0) (a.getD c 0) = false) →
      ∀ c, c < n → Desc i c → c ≠ i →
        lt ((siftDown lt x fuel a i n).getD ((c - 1) / 2) 0)
          ((siftDown lt x fuel a i n).getD c 0) = false := by
  intro fuel
  induction fuel with
  | zero => intro a i n hi _ hf; omega
  | succ fuel ih =>
    intro a i n hi hlen hf hpre c hcn hdesc hci
    have hchildc : 2 * i + 1 ≤ c := hdesc.child_le hci
    simp only [siftDown]
    split
    · rename_i hchild
      set j := pickChild lt a i n with hj
      have hij : i < j := pickChild_gt lt a i n
      have hjn : j < n := pickChild_lt_n lt a i n hchild
      have hjc : j = 2 * i + 1 ∨ j = 2 * i + 2 := pickChild_cases lt a i n
      have hdij : Desc i j := by
        rcases hjc with h | h
        · rw [h]; exact Desc.left Desc.refl
        · rw [h]; exact Desc.right Desc.refl
      split
      · rename_i hlt
        -- the hole moves to j
        have hpre₁ : ∀ c', c' < n → Desc j c' → c' ≠ j → (c' - 1) / 2 ≠ j →
            lt ((a.set i (a.getD j 0)).getD ((c' - 1) / 2) 0)
              ((a.set i (a.getD j 0)).getD c' 0) = false := by
          intro c' hc' hd' hne' hpar'
          have hcge : 2 * j + 1 ≤ c' := hd'.child_le hne'
          have hpard : Desc j ((c' - 1) / 2) := hd'.parent hne'
          have hparge : j ≤ (c' - 1) / 2 := hpard.ge
          rw [getD_set_ne _ _ _ _ (by omega), getD_set_ne _ _ _ _ (by omega)]
          exact hpre c' hc' (hdij.trans' hd') (by omega) (by omega)
        by_cases hdjc : Desc j c ∧ c ≠ j
        · exact ih _ j n hjn (by rw [List.length_set]; exact hlen) (by omega)
            hpre₁ c hcn hdjc.1 hdjc.2
        · -- c is the chosen child itself, its sibling, or outside j's subtree
          rw [not_and_or] at hdjc
          by_cases hcj : c = j
          · -- the edge from the hole into the chosen child
            have hparc : (c - 1) / 2 = i := by
              rcases hjc with h | h <;> omega
            rw [hparc, hcj]
            have hri : (siftDown lt x fuel (a.set i (a.getD j 0)) j n).getD i 0
                = a.getD j 0 := by
              rw [siftDown_getD_of_not_desc lt x fuel _ j n i (not_desc_of_lt hij),
                getD_set_self_eq _ _ _ (by omega)]
            rw [hri]
            have hbnd := siftDown_bound lt x (a.getD j 0) fuel
              (a.set i (a.getD j 0)) j n hjn
              (by rw [List.length_set]; exact hlen) (by omega)
              (hasym _ _ hlt) ?_ j hjn Desc.refl
            · exact hbnd
            · intro c' hc' hd' hne'
              rw [getD_set_ne _ _ _ _ (by have := hd'.ge; omega)]
              refine subtree_le_root lt hneg
                (fun p => by
                  cases hb : lt p p with
                  | false => rfl
                  | true => exact absurd hb (by rw [hasym _ _ hb]; exact fun hh => by cases hh))
                a n j ?_ c' hc' hd'
              intro c'' hc'' hd'' hne''
              have hge'' : 2 * j + 1 ≤ c'' := hd''.child_le hne''
              have hpard'' : Desc j ((c'' - 1) / 2) := hd''.parent hne''
              have hparge'' : j ≤ (c'' - 1) / 2 := hpard''.ge
              exact hpre c'' hc'' (hdij.trans' hd'') (by omega) (by omega)
          · -- c is not in j's subtree at all
            have hdjc' : ¬ Desc j c := by
              rcases hdjc with h | h
              · exact h
              · exact absurd hcj h
            rw [siftDown_getD_of_not_desc lt x fuel _ j n c hdjc']
            by_cases hpar : (c - 1) / 2 = i
            · -- c is the unchosen sibling: dominated by the chosen child
              have hcch : c = 2 * i + 1 ∨ c = 2 * i + 2 := by omega
              have hcnj : c ≠ j := hcj
              rw [hpar]
              have hri : (siftDown lt x fuel (a.set i (a.getD j 0)) j n).getD i 0
                  = a.getD j 0 := by
                rw [siftDown_getD_of_not_desc lt x fuel _ j n i (not_desc_of_lt hij),
                  getD_set_self_eq _ _ _ (by omega)]
              rw [hri, getD_set_ne _ _ _ _ hci]
              exact pickChild_dominates lt hasym a i n c hcn hcch hcnj
            · -- an edge untouched by the walk
              have hdpar : Desc i ((c - 1) / 2) := hdesc.parent hci
              have hparge : i ≤ (c - 1) / 2 := hdpar.ge
              have hparne : (c - 1) / 2 ≠ i := hpar
              have hdjpar : ¬ Desc j ((c - 1) / 2) := by
                intro hd
                rcases eq_or_ne ((c - 1) / 2) j with he | hne'
                · -- then c is a child of j, inside j's subtree
                  apply hdjc'
                  have : c = 2 * j + 1 ∨ c = 2 * j + 2 := by omega
                  rcases this with h | h
                  · rw [h]; exact Desc.left Desc.refl
                  · rw [h]; exact Desc.right Desc.refl
                · apply hdjc'
                  have : c = 2 * ((c - 1) / 2) + 1 ∨ c = 2 * ((c - 1) / 2) + 2 := by
                    omega
                  rcases this with h | h
                  · rw [h]; exact Desc.left hd
                  · rw [h]; exact Desc.right hd
              rw [siftDown_getD_of_not_desc lt x fuel _ j n _ hdjpar,
                getD_set_ne _ _ _ _ hparne, getD_set_ne _ _ _ _ hci]
              exact hpre c hcn hdesc hci hparne
      · rename_i hlt
        -- the walk stops: x is written at i
        have hxj : lt x (a.getD j 0) = false := by
          cases hb : lt x (a.getD j 0) with
          | false => rfl
          | true => exact absurd hb hlt
        by_cases hpar : (c - 1) / 2 = i
        · have hcch : c = 2 * i + 1 ∨ c = 2 * i + 2 := by omega
          rw [hpar, getD_set_self_eq _ _ _ (by omega), getD_set_ne _ _ _ _ hci]
          by_cases hcj : c = j
          · subst hcj; exact hxj
          · exact hneg _ _ _ (pickChild_dominates lt hasym a i n c hcn hcch hcj) hxj
        · have hdpar : Desc i ((c - 1) / 2) := hdesc.parent hci
          rw [getD_set_ne _ _ _ _ hpar, getD_set_ne _ _ _ _ hci]
          exact hpre c hcn hdesc hci hpar
    · -- no children in range: the subtree is just the root
      rename_i hchild
      omega

/-- After the build phase, the whole prefix `[0, n)` is a max-heap. -/
theorem heapifyFrom_heap (lt : ℕ → ℕ → Bool)
    (hasym : ∀ p q, lt p q = true → lt q p = false)
    (hneg : ∀ p q r, lt q p = false → lt r q = false → lt r p = false)
    (n : ℕ) :
    ∀ p a, 2 * p ≤ n → n ≤ a.length →
      (∀ c, c < n → 0 < c → p ≤ (c - 1) / 2 →
        lt (a.getD ((c - 1) / 2) 0) (a.getD c 0) = false) →
      ∀ c, c < n → 0 < c →
        lt ((heapifyFrom lt n p a).getD ((c - 1) / 2) 0)
          ((heapifyFrom lt n p a).getD c 0) = false := by
  intro p
  induction p with
  | zero =>
    intro a _ _ hInv c hcn hc0
    exact hInv c hcn hc0 (Nat.zero_le _)
  | succ p ih =>
    intro a hp hlen hInv
    rw [heapifyFrom]
    have hpn : p < n := by omega
    refine ih _ (by omega) (by rw [siftDown_length]; exact hlen) ?_
    intro c hcn hc0 hpar
    by_cases hcp : c = p
    · exfalso; omega
    by_cases hdc : Desc p c
    · refine siftDown_heap lt hasym hneg _ n a p n hpn hlen (by omega) ?_ c hcn hdc hcp
      intro c' hc' hd' hne' hpar'
      have hge' : 2 * p + 1 ≤ c' := hd'.child_le hne'
      have hpard' : Desc p ((c' - 1) / 2) := hd'.parent hne'
      have hparge' : p ≤ (c' - 1) / 2 := hpard'.ge
      exact hInv c' hc' (by omega) (by omega)
    · have hparp : (c - 1) / 2 ≠ p := by
        intro he
        apply hdc
        have : c = 2 * p + 1 ∨ c = 2 * p + 2 := by omega
        rcases this with h | h
        · rw [h]; exact Desc.left Desc.refl
        · rw [h]; exact Desc.right Desc.refl
      have hndpar : ¬ Desc p ((c - 1) / 2) := by
        intro hd
        apply hdc
        have : c = 2 * ((c - 1) / 2) + 1 ∨ c = 2 * ((c - 1) / 2) + 2 := by omega
        rcases this with h | h
        · rw [h]; exact Desc.left hd
        · rw [h]; exact Desc.right hd
      rw [siftDown_getD_of_not_desc lt _ n a p n c hdc,
        siftDown_getD_of_not_desc lt _ n a p n _ hndpar]
      exact hInv c hcn hc0 (by omega)

/-- The extraction phase turns a max-heap (with a sorted, dominating
suffix) into a fully ascending array. -/
theorem extractLoop_sorted (lt : ℕ → ℕ → Bool)
    (hasym : ∀ p q, lt p q = true → lt q p = false)
    (hneg : ∀ p q r, lt q p = false → lt r q = false → lt r p = false) :
    ∀ m a, m ≤ a.length →
      (∀ c, c < m → 0 < c →
        lt (a.getD ((c - 1) / 2) 0) (a.getD c 0) = false) →
      (∀ p q, m ≤ p → p ≤ q → q < a.length →
        lt (a.getD q 0) (a.getD p 0) = false) →
      (∀ p q, p < m → m ≤ q → q < a.length →
        lt (a.getD q 0) (a.getD p 0) = false) →
      ∀ p q, p ≤ q → q < a.length →
        lt ((extractLoop lt m a).getD q 0) ((extractLoop lt m a).getD p 0) = false := by
  have hirr : ∀ p, lt p p = false := by
    intro p
    cases hb : lt p p with
    | false => rfl
    | true => exact absurd hb (by rw [hasym _ _ hb]; exact fun hh => by cases hh)
  intro m
  induction m using Nat.strong_induction_on with
  | _ m ihm =>
    match m with
    | 0 =>
      intro a _ _ hsuffix _ p q hpq hq
      exact hsuffix p q (Nat.zero_le _) hpq hq
    | 1 =>
      intro a _ _ hsuffix hbridge p q hpq hq
      rw [extractLoop]
      rcases Nat.eq_zero_or_pos p with hp0 | hp1
      · subst hp0
        rcases Nat.eq_zero_or_pos q with hq0 | hq1
        · subst hq0; exact hirr _
        · exact hbridge 0 q (by omega) hq1 hq
      · exact hsuffix p q hp1 hpq hq
    | m + 2 =>
      intro a hm hheap hsuffix hbridge p q hpq hq
      rw [extractLoop]
      set x := a.getD (m + 1) 0 with hx
      set b := a.set (m + 1) (a.getD 0 0) with hb
      set c := siftDown lt x (m + 1) b 0 (m + 1) with hc
      have hlenb : b.length = a.length := by rw [hb, List.length_set]
      have hlenc : c.length = a.length := by rw [hc, siftDown_length, hlenb]
      have hm1len : m + 1 < a.length := by omega
      -- the root of the heap dominates the whole heap prefix
      have hroot : ∀ t, t < m + 2 → lt (a.getD 0 0) (a.getD t 0) = false := by
        intro t ht
        exact subtree_le_root lt hneg hirr a (m + 2) 0
          (fun c' hc' _ hne' => hheap c' hc' (by omega)) t ht (Desc_zero t)
      -- positions at or beyond the new live size are frozen by the sift
      have hfrozen : ∀ t, m + 1 ≤ t → c.getD t 0 = b.getD t 0 := by
        intro t ht
        rw [hc, siftDown_getD_of_ge lt x (m + 1) b 0 (m + 1) t (by omega) ht]
      have hcm1 : c.getD (m + 1) 0 = a.getD 0 0 := by
        rw [hfrozen (m + 1) (le_refl _), hb, getD_set_self_eq _ _ _ hm1len]
      have hctail : ∀ t, m + 2 ≤ t → c.getD t 0 = a.getD t 0 := by
        intro t ht
        rw [hfrozen t (by omega), hb, getD_set_ne _ _ _ _ (by omega)]
      -- the new heap values are dominated by the extracted maximum
      have hbound : ∀ t, t < m + 1 → lt (a.getD 0 0) (c.getD t 0) = false := by
        intro t ht
        rw [hc]
        refine siftDown_bound lt x (a.getD 0 0) (m + 1) b 0 (m + 1) (by omega)
          (by omega) (by omega) (hroot (m + 1) (by omega)) ?_ t ht (Desc_zero t)
        intro c' hc' _ hne'
        rw [hb, getD_set_ne _ _ _ _ (by omega)]
        exact hroot c' (by omega)
      refine ihm (m + 1) (by omega) c (by omega) ?_ ?_ ?_ p q hpq (by omega)
      · -- the shrunken prefix is a heap again
        intro c' hc' h0'
        rw [hc]
        refine siftDown_heap lt hasym hneg x (m + 1) b 0 (m + 1) (by omega)
          (by omega) (by omega) ?_ c' hc' (Desc_zero c') (by omega)
        intro c'' hc'' _ hne'' hpar''
        rw [hb, getD_set_ne _ _ _ _ (by omega), getD_set_ne _ _ _ _ (by omega)]
        exact hheap c'' (by omega) (by omega)
      · -- the grown suffix is still ascending
        intro p' q' hp' hq' hq'len
        rw [hlenc] at hq'len
        rcases eq_or_lt_of_le hq' with he | hlt'
        · rw [← he]; exact hirr _
        · rcases eq_or_lt_of_le hp' with hep | hltp
          · rw [← hep] at hlt' ⊢
            rw [hcm1, hctail q' (by omega)]
            exact hbridge 0 q' (by omega) (by omega) hq'len
          · rw [hctail p' (by omega), hctail q' (by omega)]
            exact hsuffix p' q' (by omega) hq' hq'len
      · -- the shrunken heap is still dominated by the suffix
        intro p' q' hp' hq' hq'len
        rw [hlenc] at hq'len
        have h1 : lt (a.getD 0 0) (c.getD p' 0) = false := hbound p' hp'
        have h2 : lt (c.getD q' 0) (a.getD 0 0) = false := by
          rcases eq_or_lt_of_le hq' with he | hlt'
          · rw [← he, hcm1]; exact hirr _
          · rw [hctail q' (by omega)]
            exact hbridge 0 q' (by omega) (by omega) hq'len
        exact hneg _ _ _ h1 h2

/-- The argsort `np.argsort(v, kind="heapsort")` arranges the indices so that the
values are weakly ascending along the result. -/
theorem argsort_heapsort_sorted {α : Type} [LinearOrder α] (v : List α) (dflt : α) :
    ∀ p q, p ≤ q → q < (argsort_heapsort v dflt).length →
      v.getD ((argsort_heapsort v dflt).getD p 0) dflt ≤
        v.getD ((argsort_heapsort v dflt).getD q 0) dflt := by
  intro p q hpq hq
  set lt : ℕ → ℕ → Bool := fun s t => decide (v.getD s dflt < v.getD t dflt)
    with hltdef
  have hasym : ∀ s t, lt s t = true → lt t s = false := by
    intro s t h
    rw [hltdef] at h ⊢
    simp only [decide_eq_true_eq] at h
    simpa using not_lt.mpr h.le
  have hneg : ∀ s t u, lt t s = false → lt u t = false → lt u s = false := by
    intro s t u h1 h2
    rw [hltdef] at h1 h2 ⊢
    simp only [decide_eq_false_iff_not, not_lt] at h1 h2
    simpa using le_trans h1 h2
  rw [argsort_heapsort_length] at hq
  have hkey : lt ((argsort_heapsort v dflt).getD q 0)
      ((argsort_heapsort v dflt).getD p 0) = false := by
    show lt ((extractLoop lt v.length
        (heapifyFrom lt v.length (v.length / 2) (List.range v.length))).getD q 0) _ = false
    have hlenh : (heapifyFrom lt v.length (v.length / 2)
        (List.range v.length)).length = v.length := by
      rw [heapifyFrom_length, List.length_range]
    refine extractLoop_sorted lt hasym hneg v.length _ (by omega) ?_ ?_ ?_ p q hpq
      (by omega)
    · intro c hcn hc0
      refine heapifyFrom_heap lt hasym hneg v.length (v.length / 2) _ (by omega)
        (by rw [List.length_range]) ?_ c hcn hc0
      intro c' hc' h0' hpar'
      omega
    · intro p' q' hp' _ hq'
      rw [hlenh] at hq'
      omega
    · intro p' q' _ hq' hq'len
      rw [hlenh] at hq'len
      omega
  rw [hltdef] at hkey
  simpa using hkey

/-! ## Inverse-permutation facts about the argsort -/

/-- Reading a mapped list at an in-range position, generic codomain. -/
theorem map_getD_lt' {β : Type} (f : ℕ → β) (dfl : β) (l : List ℕ) (k : ℕ)
    (hk : k < l.length) : (l.map f).getD k dfl = f (l.getD k 0) := by
  rw [List.getD_eq_getElem _ _ (by simpa using hk), List.getD_eq_getElem _ _ hk,
    List.getElem_map]

/-- Reading a reversed list. -/
theorem getD_reverse (l : List ℕ) (t : ℕ) (h : t < l.length) :
    l.reverse.getD t 0 = l.getD (l.length - 1 - t) 0 := by
  rw [List.getD_eq_getElem _ _ (by simpa using h),
    List.getD_eq_getElem _ _ (by omega), List.getElem_reverse]

/-- Mapping `getD` over `range n` recovers a list of that length. -/
theorem range_map_getD_self (l : List ℕ) (n : ℕ) (h : l.length = n) :
    (List.range n).map (fun t => l.getD t 0) = l := by
  refine List.ext_getElem (by simp [h]) ?_
  intro i h1 h2
  rw [List.getElem_map, List.getElem_range, List.getD_eq_getElem _ _ h2]

/-- Sortedness of a `ℕ`-list from its `getD` reads. -/
theorem sorted_le_of_getD (l : List ℕ)
    (h : ∀ i j, i ≤ j → j < l.length → l.getD i 0 ≤ l.getD j 0) :
    l.Sorted (· ≤ ·) := by
  rw [List.Sorted, List.pairwise_iff_getElem]
  intro i j hi hj hij
  have h1 := h i j (by omega) hj
  rwa [List.getD_eq_getElem _ _ hi, List.getD_eq_getElem _ _ hj] at h1

/-- The reads through `getD` of a duplicate-free list are injective in range. -/
theorem nodup_getD_inj (l : List ℕ) (hnd : l.Nodup) (u t : ℕ)
    (hu : u < l.length) (ht : t < l.length)
    (he : l.getD u 0 = l.getD t 0) : u = t := by
  rw [List.getD_eq_getElem _ _ hu, List.getD_eq_getElem _ _ ht] at he
  exact (List.Nodup.getElem_inj_iff hnd).mp he

/-- In-range reads of a permutation of `range n` are below `n`. -/
theorem perm_range_getD_lt (l : List ℕ) (n k : ℕ) (hp : l.Perm (List.range n))
    (hk : k < l.length) : l.getD k 0 < n := by
  rw [List.getD_eq_getElem _ _ hk]
  exact List.mem_range.mp (hp.mem_iff.mp (List.getElem_mem _))

/-- The argsort of a list that is itself a permutation of `range n` is its
inverse permutation, on the nose: reading the list along the argsort gives
`k` at position `k`.  (The weakly ascending arrangement of `n` distinct
values is unique.) -/
theorem argsort_of_perm_range (l : List ℕ) (n : ℕ) (hl : l.Perm (List.range n)) :
    ∀ k, k < n → l.getD ((argsort_heapsort l 0).getD k 0) 0 = k := by
  have hlen : l.length = n := by simpa using hl.length_eq
  have hAlen : (argsort_heapsort l 0).length = n := by
    rw [argsort_heapsort_length, hlen]
  have hAperm : (argsort_heapsort l 0).Perm (List.range n) := by
    have := argsort_heapsort_perm l 0
    rwa [hlen] at this
  set W := (argsort_heapsort l 0).map (fun t => l.getD t 0) with hW
  have hWlen : W.length = n := by rw [hW, List.length_map, hAlen]
  have hWperm : W.Perm (List.range n) := by
    refine List.Perm.trans ?_ hl
    have h1 : W.Perm ((List.range n).map (fun t => l.getD t 0)) :=
      (hAperm.map _)
    rwa [range_map_getD_self l n hlen] at h1
  have hWsorted : W.Sorted (· ≤ ·) := by
    refine sorted_le_of_getD W ?_
    intro i j hij hj
    have hj' : j < n := by rwa [hWlen] at hj
    rw [hW, map_getD_lt' _ _ _ _ (by rw [hAlen]; omega),
      map_getD_lt' _ _ _ _ (by rw [hAlen]; omega)]
    exact argsort_heapsort_sorted l 0 i j hij (by rw [hAlen]; omega)
  have hrange : (List.range n).Sorted (· ≤ ·) :=
    (List.pairwise_lt_range n).imp le_of_lt
  have hWeq : W = List.range n := List.eq_of_perm_of_sorted hWperm hWsorted hrange
  intro k hk
  have h1 : W.getD k 0 = k := by
    rw [hWeq, List.getD_eq_getElem _ _ (by simpa using hk), List.getElem_range]
  rw [hW, map_getD_lt' _ _ _ _ (by rw [hAlen]; exact hk)] at h1
  exact h1

/-- The other inverse direction, by injectivity. -/
theorem argsort_of_perm_range' (l : List ℕ) (n : ℕ) (hl : l.Perm (List.range n)) :
    ∀ t, t < n → (argsort_heapsort l 0).getD (l.getD t 0) 0 = t := by
  intro t ht
  have hlen : l.length = n := by simpa using hl.length_eq
  have hAlen : (argsort_heapsort l 0).length = n := by
    rw [argsort_heapsort_length, hlen]
  have hAperm : (argsort_heapsort l 0).Perm (List.range n) := by
    have := argsort_heapsort_perm l 0
    rwa [hlen] at this
  have hnodup : l.Nodup := hl.nodup_iff.mpr (List.nodup_range n)
  have hvt : l.getD t 0 < n := perm_range_getD_lt l n t hl (by omega)
  set u := (argsort_heapsort l 0).getD (l.getD t 0) 0 with hu
  have hun : u < n :=
    perm_range_getD_lt _ n _ hAperm (by rw [hAlen]; exact hvt)
  have h1 : l.getD u 0 = l.getD t 0 := argsort_of_perm_range l n hl (l.getD t 0) hvt
  exact nodup_getD_inj l hnodup u t (by omega) (by omega) h1

/-- Magnitudes are weakly descending along the visiting order `id0`. -/
theorem id0_desc (mags : List ℚ) (p q : ℕ) (hpq : p ≤ q)
    (hq : q < (id0 mags).length) :
    mags.getD ((id0 mags).getD q 0) 0 ≤ mags.getD ((id0 mags).getD p 0) 0 := by
  have hlen : (argsort_heapsort mags 0).length = mags.length :=
    argsort_heapsort_length mags 0
  have hq' : q < mags.length := by
    rwa [id0_length] at hq
  unfold id0 flipud
  rw [getD_reverse _ q (by omega), getD_reverse _ p (by omega), hlen]
  exact argsort_heapsort_sorted mags 0 (mags.length - 1 - q) (mags.length - 1 - p)
    (by omega) (by omega)

/-- C1 (amended).  The sort step's visiting order `id0` is the reversal of
numpy's heapsort argsort: a permutation of all indices along which
magnitudes are weakly descending.  Heapsort is not stable, so among equal
magnitudes the visiting order is neither the spec's reversed-stable order
nor descending original-index order (see the counterexample). -/
theorem claim_C1 (mags : List ℚ) :
    (id0 mags).Perm (List.range mags.length) ∧
    ∀ p q, p ≤ q → q < (id0 mags).length →
      mags.getD ((id0 mags).getD q 0) 0 ≤ mags.getD ((id0 mags).getD p 0) 0 :=
  ⟨id0_perm mags, fun p q hpq hq => id0_desc mags p q hpq hq⟩

/-- Witness for C1 (amended) at `[3, 1, 2]`. -/
theorem claim_C1_witness :
    (id0 [3, 1, 2]).Perm (List.range ([3, 1, 2] : List ℚ).length) ∧
    ([3, 1, 2] : List ℚ).getD ((id0 [3, 1, 2]).getD 1 0) 0 ≤
      ([3, 1, 2] : List ℚ).getD ((id0 [3, 1, 2]).getD 0 0) 0 :=
  ⟨(claim_C1 [3, 1, 2]).1, (claim_C1 [3, 1, 2]).2 0 1 (by decide) (by decide)⟩

/-- C1 (counterexample).  On the two equal magnitudes `[1, 1]` the engine's
visiting order is `[0, 1]` — numpy's heapsort argsort of `[1, 1]` is the
*unstable* `[1, 0]` — whereas reversing a stable ascending argsort (the
spec's tie-break rule) gives `[1, 0]`: the two orders differ, and ties are
visited in ascending, not descending, original-index order. -/
theorem claim_C1_counterexample :
    id0 [1, 1] = [0, 1] ∧ flipud (stableArgsortAsc [1, 1]) = [1, 0] ∧
      id0 [1, 1] ≠ flipud (stableArgsortAsc [1, 1]) := by
  refine ⟨by decide, by decide, by decide⟩

/-! ## The clustering loop: invariants

The loop is a `foldl` of `gkStep` over `range (n - 1)`; each invariant is
established by the generic fold-invariance principle below and a per-step
analysis of the three branches of `gkStep` (skip clustered seeds, skip
lonely candidates, allocate a cluster). -/

theorem foldl_inv {σ α : Type} (f : σ → α → σ) (P : σ → Prop) :
    ∀ (l : List α) (s : σ), P s → (∀ s' a, a ∈ l → P s' → P (f s' a)) →
      P (l.foldl f s) := by
  intro l
  induction l with
  | nil => intro s h _; exact h
  | cons a l ih =>
    intro s h hstep
    exact ih (f s a) (hstep s a (List.mem_cons_self a l) h)
      (fun s' b hb => hstep s' b (List.mem_cons_of_mem a hb))

/-- The candidate mask selects only in-range, unclustered positions. -/
theorem vsel_range (d : GKData) (cids : ℕ → ℤ) (i j : ℕ)
    (h : vsel d cids i j = true) : j < d.n ∧ cids j = 0 := by
  unfold vsel at h
  simp only [Bool.and_eq_true, decide_eq_true_eq] at h
  exact ⟨h.1.1.1.1, h.1.1.1.2⟩

/-- The time-window component of the candidate mask. -/
theorem vsel_time (d : GKData) (cids : ℕ → ℤ) (i j : ℕ)
    (h : vsel d cids i j = true) :
    -(d.swTime i * d.fs) ≤ d.year j - d.year i ∧
      d.year j - d.year i ≤ d.swTime i := by
  unfold vsel at h
  simp only [Bool.and_eq_true, decide_eq_true_eq] at h
  exact ⟨h.1.1.2, h.1.2⟩

/-- The distance component of the candidate mask. -/
theorem vsel_dist (d : GKData) (cids : ℕ → ℤ) (i j : ℕ)
    (h : vsel d cids i j = true) :
    d.dist (d.lon j) (d.lat j) (d.lon i) (d.lat i) ≤ d.swSpace i := by
  unfold vsel at h
  simp only [Bool.and_eq_true, decide_eq_true_eq] at h
  exact h.2

/-- With a nonnegative `fs_time_prop`, an unclustered in-range seed is
always inside its own candidate mask, provided its own time window is
nonnegative and its location is within its own space window. -/
theorem vsel_self (d : GKData) (cids : ℕ → ℤ) (i : ℕ)
    (hin : i < d.n) (hc : cids i = 0) (hfs : 0 ≤ d.fs) (ht : 0 ≤ d.swTime i)
    (hd : d.dist (d.lon i) (d.lat i) (d.lon i) (d.lat i) ≤ d.swSpace i) :
    vsel d cids i i = true := by
  unfold vsel
  simp only [Bool.and_eq_true, decide_eq_true_eq]
  refine ⟨⟨⟨⟨hin, hc⟩, ?_⟩, by simpa using ht⟩, hd⟩
  have hnn : 0 ≤ d.swTime i * d.fs := mul_nonneg ht hfs
  simp only [sub_self]
  linarith

/-- With a nonnegative `fs_time_prop` and a negative time window at the
seed, the candidate mask is empty. -/
theorem vsel_empty_of_neg_time (d : GKData) (cids : ℕ → ℤ) (i j : ℕ)
    (hfs : 0 ≤ d.fs) (ht : d.swTime i < 0) : vsel d cids i j = false := by
  by_contra h
  have h' := vsel_time d cids i j (by revert h; cases vsel d cids i j <;> simp)
  have hnp : d.swTime i * d.fs ≤ 0 := mul_nonpos_of_nonpos_of_nonneg ht.le hfs
  linarith [h'.1, h'.2]

/-- Reading a mapped array at an in-range position. -/
theorem map_getD_lt (f : ℕ → ℤ) (l : List ℕ) (k : ℕ) (hk : k < l.length) :
    (l.map f).getD k 0 = f (l.getD k 0) := by
  rw [List.getD_eq_getElem _ _ (by simpa using hk), List.getD_eq_getElem _ _ hk,
    List.getElem_map]

/-- Reading the materialised state array `(range n).map h`. -/
theorem range_map_getD (h : ℕ → ℤ) (n t : ℕ) :
    ((List.range n).map h).getD t 0 = if t < n then h t else 0 := by
  split
  · rename_i ht
    rw [List.getD_eq_getElem _ _ (by simpa using ht), List.getElem_map,
      List.getElem_range]
  · rename_i ht
    rw [List.getD_eq_default]
    simpa using Nat.le_of_not_lt ht

/-- Invariant: throughout the loop, unclustered events carry shock type 0. -/
theorem gkLoop_cid0_shock0 (d : GKData) :
    ∀ j, (gkLoop d).cluster_ids j = 0 → (gkLoop d).shock_types j = 0 := by
  unfold gkLoop
  refine foldl_inv (gkStep d)
    (fun st => ∀ j, st.cluster_ids j = 0 → st.shock_types j = 0) _ gkInit
    (fun j _ => rfl) ?_
  intro st i _ hP
  unfold gkStep
  split
  · split
    · exact hP
    · intro j hj
      dsimp only at hj ⊢
      by_cases hji : j = i
      · rw [if_pos hji]
      · rw [if_neg hji]
        by_cases hv : vsel d st.cluster_ids i j = true
        · rw [if_pos hv] at hj
          omega
        · rw [if_neg hv] at hj
          rw [if_neg hv]
          exact hP j hj
  · exact hP

/-- The `cid = 0 → shock = 0` invariant survives the inverse-permutation
restore of `declusterRun`. -/
theorem declusterRun_cid0_shock0 (mags lons lats years : List ℚ)
    (cfg : GKConfig) (dist : ℚ → ℚ → ℚ → ℚ → ℚ) :
    ∀ k, (declusterRun mags lons lats years cfg dist).1.getD k 0 = 0 →
      (declusterRun mags lons lats years cfg dist).2.getD k 0 = 0 := by
  intro k
  unfold declusterRun
  dsimp only
  set d := declusterData mags lons lats years cfg dist with hd
  set st := gkLoop d with hst
  set id1 := argsort_heapsort (id0 mags) 0 with hid1
  rcases lt_or_le k id1.length with hk | hk
  · rw [map_getD_lt _ _ _ hk, map_getD_lt _ _ _ hk,
      range_map_getD, range_map_getD]
    split
    · exact gkLoop_cid0_shock0 d _
    · intro _; rfl
  · rw [List.getD_eq_default _ _ (by simpa using hk),
      List.getD_eq_default _ _ (by simpa using hk)]
    intro _; rfl

/-- A successful `decluster` is a `declusterRun` on one of the two
decimal-year columns. -/
theorem decluster_ok_eq (cat : Catalogue) (cfg : GKConfig)
    (dist : ℚ → ℚ → ℚ → ℚ → ℚ) (out : List ℤ × List ℤ)
    (hok : GardnerKnopoffType1.decluster cat cfg dist = .ok out) :
    ∃ years, out = declusterRun cat.magnitude cat.longitude cat.latitude
      years cfg dist := by
  unfold GardnerKnopoffType1.decluster at hok
  split at hok
  · exact ⟨_, (Except.ok.injEq _ _ ▸ hok).symm⟩
  · revert hok
    split
    · intro hok
      exact ⟨_, (Except.ok.injEq _ _ ▸ hok).symm⟩
    · intro hok
      cases hok

/-- C8.  For every catalog and configuration on which `decluster` succeeds,
every event whose returned cluster id is 0 has shock type 0. -/
theorem claim_C8 (cat : Catalogue) (cfg : GKConfig)
    (dist : ℚ → ℚ → ℚ → ℚ → ℚ) (out : List ℤ × List ℤ)
    (hok : GardnerKnopoffType1.decluster cat cfg dist = .ok out) :
    ∀ k, out.1.getD k 0 = 0 → out.2.getD k 0 = 0 := by
  obtain ⟨years, rfl⟩ := decluster_ok_eq cat cfg dist out hok
  exact declusterRun_cid0_shock0 _ _ _ _ _ _

/-- Invariant: with `fs_time_prop = 0` the backward search window has zero
width, so no shock type is ever set to −1. -/
theorem gkLoop_no_foreshock (d : GKData) (hfs : d.fs = 0) :
    ∀ j, (gkLoop d).shock_types j ≠ -1 := by
  unfold gkLoop
  refine foldl_inv (gkStep d) (fun st => ∀ j, st.shock_types j ≠ -1) _ gkInit
    (fun j => by simp [gkInit]) ?_
  intro st i _ hP
  unfold gkStep
  split
  · split
    · exact hP
    · intro j
      dsimp only
      by_cases hji : j = i
      · rw [if_pos hji]; omega
      · rw [if_neg hji]
        by_cases hv : vsel d st.cluster_ids i j = true
        · rw [if_pos hv]
          have ht := (vsel_time d st.cluster_ids i j hv).1
          rw [hfs, mul_zero, neg_zero] at ht
          rw [if_neg (not_lt.mpr ht)]
          omega
        · rw [if_neg hv]
          exact hP j
  · exact hP

/-- C6.  With `fs_time_prop = 0`, no event of a successful `decluster`
result receives shock type −1. -/
theorem claim_C6 (cat : Catalogue) (cfg : GKConfig)
    (dist : ℚ → ℚ → ℚ → ℚ → ℚ) (out : List ℤ × List ℤ)
    (hfs : cfg.fs_time_prop = 0)
    (hok : GardnerKnopoffType1.decluster cat cfg dist = .ok out) :
    ∀ s ∈ out.2, s ≠ -1 := by
  obtain ⟨years, rfl⟩ := decluster_ok_eq cat cfg dist out hok
  intro s hs
  unfold declusterRun at hs
  dsimp only at hs
  obtain ⟨t, -, rfl⟩ := List.mem_map.mp hs
  rw [range_map_getD]
  split
  · exact gkLoop_no_foreshock _ hfs t
  · omega

/-- An index occurs exactly once as an equality-test count over `range n`. -/
theorem countP_eq_range (i n : ℕ) (h : i < n) :
    (List.range n).countP (fun t => decide (t = i)) = 1 := by
  induction n with
  | zero => omega
  | succ n ih =>
    rw [List.range_succ, List.countP_append]
    rcases Nat.lt_or_ge i n with hi | hi
    · rw [ih hi]
      have : (List.countP (fun t => decide (t = i)) [n]) = 0 := by
        simp only [List.countP_cons, List.countP_nil]
        have : n ≠ i := by omega
        simp [this]
      omega
    · have hni : i = n := by omega
      subst hni
      have h0 : (List.range i).countP (fun t => decide (t = i)) = 0 := by
        rw [List.countP_eq_zero]
        intro a ha
        have := List.mem_range.mp ha
        simp only [decide_eq_true_eq]
        omega
      simp [h0]

/-- The master invariant behind C2: cluster ids stay within
`[0, clust_index]`, unclustered events have shock type 0, and every
allocated cluster id has exactly one member with shock type 0.
Hypotheses: `fs_time_prop` is nonnegative and every event is within its own
space window (true of the haversine distance and the nonnegative space
windows every variant produces). -/
theorem gkLoop_cluster_inv (d : GKData) (hfs : 0 ≤ d.fs)
    (hself : ∀ i, i < d.n →
      d.dist (d.lon i) (d.lat i) (d.lon i) (d.lat i) ≤ d.swSpace i) :
    (∀ j, 0 ≤ (gkLoop d).cluster_ids j ∧
      (gkLoop d).cluster_ids j ≤ ((gkLoop d).clust_index : ℤ)) ∧
    (∀ c : ℤ, 1 ≤ c → c ≤ ((gkLoop d).clust_index : ℤ) →
      (List.range d.n).countP
        (fun t => decide ((gkLoop d).cluster_ids t = c ∧
          (gkLoop d).shock_types t = 0)) = 1) := by
  unfold gkLoop
  refine foldl_inv (gkStep d)
    (fun st =>
      (∀ j, 0 ≤ st.cluster_ids j ∧ st.cluster_ids j ≤ (st.clust_index : ℤ)) ∧
      (∀ c : ℤ, 1 ≤ c → c ≤ (st.clust_index : ℤ) →
        (List.range d.n).countP
          (fun t => decide (st.cluster_ids t = c ∧ st.shock_types t = 0)) = 1))
    _ gkInit ⟨fun j => by simp [gkInit], fun c hc1 hc2 => by simp [gkInit] at hc1 hc2; omega⟩ ?_
  intro st i hi hP
  obtain ⟨hbound, hcount⟩ := hP
  have hin : i < d.n := by
    have := List.mem_range.mp hi
    omega
  unfold gkStep
  split
  · rename_i h0
    split
    · exact ⟨hbound, hcount⟩
    · rename_i hne
      -- a cluster is allocated: the seed is inside its own mask
      have hvi : vsel d st.cluster_ids i i = true := by
        rcases le_or_lt 0 (d.swTime i) with ht | ht
        · exact vsel_self d st.cluster_ids i hin h0 hfs ht (hself i hin)
        · exfalso
          apply hne
          rw [List.isEmpty_iff, List.filter_eq_nil_iff]
          intro j _
          rw [vsel_empty_of_neg_time d st.cluster_ids i j hfs ht]
          simp
      constructor
      · intro j
        dsimp only
        by_cases hv : vsel d st.cluster_ids i j = true
        · rw [if_pos hv]
          constructor <;> omega
        · rw [if_neg hv]
          have := hbound j
          constructor <;> omega
      · intro c hc1 hc2
        dsimp only at hc2 ⊢
        rcases eq_or_lt_of_le hc2 with hceq | hclt
        · -- the freshly allocated id: its only shock-0 member is the seed
          rw [show ((List.range d.n).countP
              (fun t => decide ((if vsel d st.cluster_ids i t then
                  (st.clust_index + 1 : ℤ) else st.cluster_ids t) = c ∧
                (if t = i then 0
                 else if vsel d st.cluster_ids i t then
                   (if d.year t - d.year i < 0 then (-1 : ℤ) else 1)
                 else st.shock_types t) = 0))) =
              ((List.range d.n).countP (fun t => decide (t = i))) from ?_]
          · exact countP_eq_range i d.n hin
          · apply List.countP_congr
            intro t _
            simp only [decide_eq_true_eq]
            by_cases hti : t = i
            · subst hti
              rw [if_pos hvi, if_pos rfl]
              exact ⟨fun _ => rfl, fun _ => ⟨by omega, rfl⟩⟩
            · rw [if_neg hti]
              by_cases hv : vsel d st.cluster_ids i t = true
              · rw [if_pos hv, if_pos hv]
                constructor
                · rintro ⟨-, hsh⟩
                  exfalso
                  split at hsh <;> omega
                · intro hcc; exact absurd hcc hti
              · rw [if_neg hv, if_neg hv]
                constructor
                · rintro ⟨hcc, -⟩
                  have := (hbound t).2
                  omega
                · intro hcc; exact absurd hcc hti
        · -- previously allocated ids: their member sets are untouched
          have hck : c ≤ (st.clust_index : ℤ) := by omega
          rw [show ((List.range d.n).countP
              (fun t => decide ((if vsel d st.cluster_ids i t then
                  (st.clust_index + 1 : ℤ) else st.cluster_ids t) = c ∧
                (if t = i then 0
                 else if vsel d st.cluster_ids i t then
                   (if d.year t - d.year i < 0 then (-1 : ℤ) else 1)
                 else st.shock_types t) = 0))) =
              ((List.range d.n).countP
                (fun t => decide (st.cluster_ids t = c ∧
                  st.shock_types t = 0))) from ?_]
          · exact hcount c hc1 hck
          · apply List.countP_congr
            intro t _
            simp only [decide_eq_true_eq]
            by_cases hv : vsel d st.cluster_ids i t = true
            · rw [if_pos hv]
              have ht0 := (vsel_range d st.cluster_ids i t hv).2
              constructor
              · rintro ⟨hcc, -⟩; exfalso; omega
              · rintro ⟨hcc, -⟩; exfalso; omega
            · rw [if_neg hv]
              by_cases hti : t = i
              · subst hti
                rw [if_pos rfl]
                constructor
                · rintro ⟨hcc, -⟩; exfalso; omega
                · rintro ⟨hcc, -⟩; exfalso; omega
              · rw [if_neg hti, if_neg hv]
  · exact ⟨hbound, hcount⟩

/-- Sorted access into a list of nonnegative values is nonnegative. -/
theorem sortedAccess_nonneg (xs : List ℚ) (ord : List ℕ) (j : ℕ)
    (h : ∀ x ∈ xs, 0 ≤ x) : 0 ≤ sortedAccess xs ord j := by
  unfold sortedAccess
  split
  · rcases lt_or_le (ord.getD j 0) xs.length with hj | hj
    · rw [List.getD_eq_getElem _ _ hj]
      exact h _ (List.getElem_mem _)
    · rw [List.getD_eq_default _ _ hj]
  · exact le_refl _

/-- C2 at the level of `declusterRun`: if `fs_time_prop` is nonnegative (its
documented range is `[0, 1]`), the space windows are nonnegative (true of
every variant) and the distance of a point to itself is `0` (true of the
haversine), then every allocated cluster id present in the output has
exactly one member with shock type 0. -/
theorem declusterRun_cluster_count (mags lons lats years : List ℚ)
    (cfg : GKConfig) (dist : ℚ → ℚ → ℚ → ℚ → ℚ)
    (hfs : 0 ≤ cfg.fs_time_prop)
    (hspace : ∀ m, 0 ≤ (cfg.time_distance_window m).1)
    (hdist : ∀ x y, dist x y x y = 0) :
    ∀ c : ℤ, 0 < c → c ∈ (declusterRun mags lons lats years cfg dist).1 →
      ((declusterRun mags lons lats years cfg dist).1.zip
        (declusterRun mags lons lats years cfg dist).2).countP
        (fun pr => decide (pr = (c, 0))) = 1 := by
  intro c hc hmem
  have hselfd : ∀ i, i < (declusterData mags lons lats years cfg dist).n →
      (declusterData mags lons lats years cfg dist).dist
        ((declusterData mags lons lats years cfg dist).lon i)
        ((declusterData mags lons lats years cfg dist).lat i)
        ((declusterData mags lons lats years cfg dist).lon i)
        ((declusterData mags lons lats years cfg dist).lat i) ≤
      (declusterData mags lons lats years cfg dist).swSpace i := by
    intro i _
    show dist _ _ _ _ ≤ sortedAccess _ _ i
    rw [hdist]
    refine sortedAccess_nonneg _ _ i ?_
    intro x hx
    obtain ⟨m, -, rfl⟩ := List.mem_map.mp hx
    exact hspace m
  have hinv := gkLoop_cluster_inv (declusterData mags lons lats years cfg dist)
    hfs hselfd
  obtain ⟨hbound, hcount⟩ := hinv
  unfold declusterRun at hmem ⊢
  dsimp only at hmem ⊢
  set d := declusterData mags lons lats years cfg dist with hd
  set st := gkLoop d with hst
  set id1 := argsort_heapsort (id0 mags) 0 with hid1def
  have hid1 : id1.Perm (List.range mags.length) := by
    have := argsort_heapsort_perm (id0 mags) 0
    rwa [id0_length] at this
  -- the id present in the output is one the loop allocated
  obtain ⟨t, -, hft⟩ := List.mem_map.mp hmem
  rw [range_map_getD] at hft
  have hck : c ≤ (st.clust_index : ℤ) := by
    by_cases htn : t < mags.length
    · rw [if_pos htn] at hft
      have := (hbound t).2
      omega
    · rw [if_neg htn] at hft
      omega
  -- collapse the zip of the two restored arrays to a single map
  rw [List.zip_map', List.countP_map]
  rw [hid1.countP_eq]
  rw [List.countP_congr (q := fun t =>
    decide (st.cluster_ids t = c ∧ st.shock_types t = 0)) ?_]
  · exact hcount c (by omega) hck
  · intro t ht
    have htn : t < mags.length := List.mem_range.mp ht
    simp only [Function.comp_apply, decide_eq_true_eq]
    rw [range_map_getD, range_map_getD, if_pos htn, if_pos htn, Prod.mk.injEq]

/-- C2.  For every catalog and configuration on which `decluster` succeeds
— with `fs_time_prop` in its documented nonnegative range, space windows
nonnegative as every window variant guarantees, and a distance function
vanishing on coincident points as the haversine does — every cluster id
greater than 0 in the returned array has exactly one member with shock type
0: its seed, whose own cluster id is that id. -/
theorem claim_C2 (cat : Catalogue) (cfg : GKConfig)
    (dist : ℚ → ℚ → ℚ → ℚ → ℚ) (out : List ℤ × List ℤ)
    (hok : GardnerKnopoffType1.decluster cat cfg dist = .ok out)
    (hfs : 0 ≤ cfg.fs_time_prop)
    (hspace : ∀ m, 0 ≤ (cfg.time_distance_window m).1)
    (hdist : ∀ x y, dist x y x y = 0) :
    ∀ c : ℤ, 0 < c → c ∈ out.1 →
      (out.1.zip out.2).countP (fun pr => decide (pr = (c, 0))) = 1 := by
  obtain ⟨years, rfl⟩ := decluster_ok_eq cat cfg dist out hok
  exact declusterRun_cluster_count _ _ _ _ _ _ hfs hspace hdist

/-- Every recorded seed is a sorted position strictly before the last:
the loop `for i in range(0, neq - 1)` never offers the last position as a
seed. -/
theorem gkLoop_seeds_lt (d : GKData) :
    ∀ s ∈ (gkLoop d).seeds, s < d.n - 1 := by
  unfold gkLoop
  refine foldl_inv (gkStep d) (fun st => ∀ s ∈ st.seeds, s < d.n - 1) _ gkInit
    (fun s hs => by simp [gkInit] at hs) ?_
  intro st i hi hP
  have hin : i < d.n - 1 := List.mem_range.mp hi
  unfold gkStep
  split
  · split
    · exact hP
    · intro s hs
      dsimp only at hs
      rcases List.mem_append.mp hs with h | h
      · exact hP s h
      · rw [List.mem_singleton.mp h]; exact hin
  · exact hP

/-- A clustered event is either a recorded seed or carries a nonzero shock
type (it was absorbed, with shock type ±1). -/
theorem gkLoop_seed_or_shock (d : GKData) :
    ∀ j, (gkLoop d).cluster_ids j ≠ 0 →
      j ∈ (gkLoop d).seeds ∨ (gkLoop d).shock_types j ≠ 0 := by
  unfold gkLoop
  refine foldl_inv (gkStep d)
    (fun st => ∀ j, st.cluster_ids j ≠ 0 →
      j ∈ st.seeds ∨ st.shock_types j ≠ 0) _ gkInit
    (fun j hj => absurd rfl hj) ?_
  intro st i _ hP
  unfold gkStep
  split
  · rename_i h0
    split
    · exact hP
    · intro j hj
      dsimp only at hj ⊢
      by_cases hv : vsel d st.cluster_ids i j = true
      · by_cases hji : j = i
        · subst hji
          exact Or.inl (List.mem_append.mpr (Or.inr (List.mem_singleton.mpr rfl)))
        · right
          rw [if_neg hji, if_pos hv]
          split <;> omega
      · rw [if_neg hv] at hj
        by_cases hji : j = i
        · subst hji; exact absurd h0 hj
        · rcases hP j hj with h | h
          · exact Or.inl (List.mem_append.mpr (Or.inl h))
          · right
            rw [if_neg hji, if_neg hv]
            exact h
  · exact hP

/-- A spatially/temporally isolated last position stays unclustered:
its cluster id can only be set through some seed's window test. -/
theorem gkLoop_isolated (d : GKData)
    (hiso : ∀ i, i < d.n - 1 → ¬ inWindow d i (d.n - 1)) :
    (gkLoop d).cluster_ids (d.n - 1) = 0 := by
  unfold gkLoop
  refine foldl_inv (gkStep d) (fun st => st.cluster_ids (d.n - 1) = 0) _ gkInit
    rfl ?_
  intro st i hi hP
  have hin : i < d.n - 1 := List.mem_range.mp hi
  unfold gkStep
  split
  · split
    · exact hP
    · dsimp only
      by_cases hv : vsel d st.cluster_ids i (d.n - 1) = true
      · exfalso
        exact hiso i hin ⟨(vsel_time d st.cluster_ids i _ hv).1,
          (vsel_time d st.cluster_ids i _ hv).2,
          vsel_dist d st.cluster_ids i _ hv⟩
      · rw [if_neg hv]; exact hP
  · exact hP

/-- Projection of the restored output arrays back to the sorted frame:
the output at original index `id0[t]` is the loop's value at sorted
position `t`. -/
theorem declusterRun_getD_at (mags lons lats years : List ℚ) (cfg : GKConfig)
    (dist : ℚ → ℚ → ℚ → ℚ → ℚ) (t : ℕ) (ht : t < mags.length) :
    (declusterRun mags lons lats years cfg dist).1.getD ((id0 mags).getD t 0) 0 =
      (gkLoop (declusterData mags lons lats years cfg dist)).cluster_ids t ∧
    (declusterRun mags lons lats years cfg dist).2.getD ((id0 mags).getD t 0) 0 =
      (gkLoop (declusterData mags lons lats years cfg dist)).shock_types t := by
  unfold declusterRun
  dsimp only
  have hid1len : (argsort_heapsort (id0 mags) 0).length = mags.length := by
    rw [argsort_heapsort_length, id0_length]
  have he : (id0 mags).getD t 0 < mags.length :=
    perm_range_getD_lt (id0 mags) mags.length t (id0_perm mags)
      (by rw [id0_length]; exact ht)
  have hinv : (argsort_heapsort (id0 mags) 0).getD ((id0 mags).getD t 0) 0 = t :=
    argsort_of_perm_range' (id0 mags) mags.length (id0_perm mags) t ht
  constructor
  · rw [map_getD_lt _ _ _ (by rw [hid1len]; exact he), hinv,
      range_map_getD, if_pos ht]
  · rw [map_getD_lt _ _ _ (by rw [hid1len]; exact he), hinv,
      range_map_getD, if_pos ht]

/-- C7.  The event occupying the last position of the descending-magnitude
order — the globally smallest-magnitude event — is never used as a cluster
seed: if it ends up clustered it was absorbed (its shock type is nonzero),
and if no earlier seed's space-time window test reaches it, its cluster id
stays 0. -/
theorem claim_C7 (mags lons lats years : List ℚ) (cfg : GKConfig)
    (dist : ℚ → ℚ → ℚ → ℚ → ℚ) (hn : 1 ≤ mags.length) :
    (mags.length - 1) ∉
      (gkLoop (declusterData mags lons lats years cfg dist)).seeds ∧
    (∀ k, k < mags.length →
      mags.getD ((id0 mags).getD (mags.length - 1) 0) 0 ≤
        mags.getD ((id0 mags).getD k 0) 0) ∧
    ((declusterRun mags lons lats years cfg dist).1.getD
        ((id0 mags).getD (mags.length - 1) 0) 0 ≠ 0 →
      (declusterRun mags lons lats years cfg dist).2.getD
        ((id0 mags).getD (mags.length - 1) 0) 0 ≠ 0) ∧
    ((∀ i, i < mags.length - 1 →
        ¬ inWindow (declusterData mags lons lats years cfg dist) i
          (mags.length - 1)) →
      (declusterRun mags lons lats years cfg dist).1.getD
        ((id0 mags).getD (mags.length - 1) 0) 0 = 0) := by
  have hproj := declusterRun_getD_at mags lons lats years cfg dist
    (mags.length - 1) (by omega)
  refine ⟨?_, ?_, ?_, ?_⟩
  · intro hmem
    have h' : mags.length - 1 < mags.length - 1 := gkLoop_seeds_lt _ _ hmem
    omega
  · intro k hk
    exact id0_desc mags k (mags.length - 1) (by omega) (by rw [id0_length]; omega)
  · intro hnz
    rw [hproj.1] at hnz
    rw [hproj.2]
    rcases gkLoop_seed_or_shock _ _ hnz with h | h
    · have h' : mags.length - 1 < mags.length - 1 := gkLoop_seeds_lt _ _ h
      omega
    · exact h
  · intro hiso
    rw [hproj.1]
    exact gkLoop_isolated _ hiso

/-- Witness for C7 at a concrete two-event catalog whose events are 50
years apart (the smaller event is isolated in time). -/
theorem claim_C7_witness :
    1 ≤ ([3, 1] : List ℚ).length ∧
    (((([3, 1] : List ℚ).length - 1) ∉
      (gkLoop (declusterData [3, 1] [0, 0] [0, 0] [2000, 2050] cfgTie
        distZero)).seeds) ∧
    (∀ k, k < ([3, 1] : List ℚ).length →
      ([3, 1] : List ℚ).getD ((id0 [3, 1]).getD (([3, 1] : List ℚ).length - 1) 0) 0 ≤
        ([3, 1] : List ℚ).getD ((id0 [3, 1]).getD k 0) 0) ∧
    ((declusterRun [3, 1] [0, 0] [0, 0] [2000, 2050] cfgTie distZero).1.getD
        ((id0 [3, 1]).getD (([3, 1] : List ℚ).length - 1) 0) 0 ≠ 0 →
      (declusterRun [3, 1] [0, 0] [0, 0] [2000, 2050] cfgTie distZero).2.getD
        ((id0 [3, 1]).getD (([3, 1] : List ℚ).length - 1) 0) 0 ≠ 0) ∧
    ((∀ i, i < ([3, 1] : List ℚ).length - 1 →
        ¬ inWindow (declusterData [3, 1] [0, 0] [0, 0] [2000, 2050] cfgTie
          distZero) i (([3, 1] : List ℚ).length - 1)) →
      (declusterRun [3, 1] [0, 0] [0, 0] [2000, 2050] cfgTie distZero).1.getD
        ((id0 [3, 1]).getD (([3, 1] : List ℚ).length - 1) 0) 0 = 0)) :=
  ⟨by decide, claim_C7 [3, 1] [0, 0] [0, 0] [2000, 2050] cfgTie distZero (by decide)⟩

/-! ## Permutation equivariance for catalogs with distinct magnitudes -/

/-- Strict sortedness of an index list from its `getD` reads. -/
theorem sorted_strict_of_getD (key : ℕ → ℚ) (l : List ℕ)
    (h : ∀ i j, i < j → j < l.length → key (l.getD i 0) < key (l.getD j 0)) :
    l.Sorted (fun a b => key a < key b) := by
  rw [List.Sorted, List.pairwise_iff_getElem]
  intro i j hi hj hij
  have h1 := h i j hij hj
  rwa [List.getD_eq_getElem _ _ hi, List.getD_eq_getElem _ _ hj] at h1

/-- The reads through `getD` of a duplicate-free rational list are injective in range. -/
theorem nodup_getD_inj_q (l : List ℚ) (hnd : l.Nodup) (u t : ℕ)
    (hu : u < l.length) (ht : t < l.length)
    (he : l.getD u 0 = l.getD t 0) : u = t := by
  rw [List.getD_eq_getElem _ _ hu, List.getD_eq_getElem _ _ ht] at he
  exact (List.Nodup.getElem_inj_iff hnd).mp he

/-- Reading a mapped `ℚ`-list at an in-range position. -/
theorem getD_map_q (g : ℚ → ℚ) (xs : List ℚ) (k : ℕ) (hk : k < xs.length) :
    (xs.map g).getD k 0 = g (xs.getD k 0) := by
  rw [List.getD_eq_getElem _ _ (by simpa using hk), List.getD_eq_getElem _ _ hk,
    List.getElem_map]

/-- With pairwise-distinct magnitudes, the heapsort argsort of a
row-permuted magnitude array is the row permutation composed with the
argsort of the original array: the weakly ascending arrangement of `n`
distinct values is unique. -/
theorem argsort_align (mags : List ℚ) (p : List ℕ)
    (hp : p.Perm (List.range mags.length)) (hnd : mags.Nodup) :
    ∀ k, k < mags.length →
      p.getD ((argsort_heapsort (p.map (fun t => mags.getD t 0)) 0).getD k 0) 0 =
        (argsort_heapsort mags 0).getD k 0 := by
  set n := mags.length with hn
  set mags' := p.map (fun t => mags.getD t 0) with hm'
  have hplen : p.length = n := by simpa using hp.length_eq
  have hm'len : mags'.length = n := by rw [hm', List.length_map, hplen]
  set A := argsort_heapsort mags 0 with hA
  set A' := argsort_heapsort mags' 0 with hA'
  have hAlen : A.length = n := by rw [hA, argsort_heapsort_length]
  have hA'len : A'.length = n := by rw [hA', argsort_heapsort_length, hm'len]
  have hAperm : A.Perm (List.range n) := argsort_heapsort_perm mags 0
  have hA'perm : A'.Perm (List.range n) := by
    have := argsort_heapsort_perm mags' 0
    rwa [hm'len] at this
  set L := A'.map (fun t => p.getD t 0) with hL
  have hLlen : L.length = n := by rw [hL, List.length_map, hA'len]
  have hLperm : L.Perm (List.range n) := by
    have h1 : L.Perm ((List.range n).map (fun t => p.getD t 0)) := hA'perm.map _
    rw [range_map_getD_self p n hplen] at h1
    exact h1.trans hp
  -- the key reads of L are the key reads of A'
  have hkeyL : ∀ k, k < n → mags.getD (L.getD k 0) 0 = mags'.getD (A'.getD k 0) 0 := by
    intro k hk
    have hbA' : k < A'.length := by omega
    have hv : A'.getD k 0 < p.length := by
      have := perm_range_getD_lt A' n k hA'perm hbA'
      omega
    rw [hL, map_getD_lt' _ _ _ _ hbA', hm', map_getD_lt' _ _ _ _ hv]
  -- values below n are in range for both lists
  have hLval : ∀ k, k < n → L.getD k 0 < n := fun k hk =>
    perm_range_getD_lt L n k hLperm (by omega)
  have hAval : ∀ k, k < n → A.getD k 0 < n := fun k hk =>
    perm_range_getD_lt A n k hAperm (by omega)
  have hLnd : L.Nodup := hLperm.nodup_iff.mpr (List.nodup_range n)
  have hAnd : A.Nodup := hAperm.nodup_iff.mpr (List.nodup_range n)
  -- both lists are strictly ascending under the magnitude key
  have hLsorted : L.Sorted (fun a b => mags.getD a 0 < mags.getD b 0) := by
    refine sorted_strict_of_getD _ _ ?_
    intro i j hij hj
    have hj' : j < n := by omega
    have hle : mags'.getD (A'.getD i 0) 0 ≤ mags'.getD (A'.getD j 0) 0 :=
      argsort_heapsort_sorted mags' 0 i j (by omega) (by rw [← hA']; omega)
    rw [← hkeyL i (by omega), ← hkeyL j hj'] at hle
    refine lt_of_le_of_ne hle ?_
    intro he
    have := nodup_getD_inj_q mags hnd _ _ (by rw [← hn]; exact hLval i (by omega))
      (by rw [← hn]; exact hLval j hj') he
    have hij' := nodup_getD_inj L hLnd i j (by omega) (by omega) this
    omega
  have hAsorted : A.Sorted (fun a b => mags.getD a 0 < mags.getD b 0) := by
    refine sorted_strict_of_getD _ _ ?_
    intro i j hij hj
    have hj' : j < n := by omega
    have hle : mags.getD (A.getD i 0) 0 ≤ mags.getD (A.getD j 0) 0 :=
      argsort_heapsort_sorted mags 0 i j (by omega) (by rw [← hA]; omega)
    refine lt_of_le_of_ne hle ?_
    intro he
    have := nodup_getD_inj_q mags hnd _ _ (by rw [← hn]; exact hAval i (by omega))
      (by rw [← hn]; exact hAval j hj') he
    have hij' := nodup_getD_inj A hAnd i j (by omega) (by omega) this
    omega
  -- the unique strictly ascending arrangement: L = A
  have hLA : L = A := by
    haveI : IsAntisymm ℕ (fun a b => mags.getD a 0 < mags.getD b 0) :=
      ⟨fun a b hab hba => absurd hba (lt_asymm hab)⟩
    exact List.eq_of_perm_of_sorted (hLperm.trans hAperm.symm) hLsorted hAsorted
  intro k hk
  have h1 : L.getD k 0 = A.getD k 0 := by rw [hLA]
  rwa [hL, map_getD_lt' _ _ _ _ (by omega)] at h1

/-- The alignment of `argsort_align` carried through the `flipud`. -/
theorem id0_align (mags : List ℚ) (p : List ℕ)
    (hp : p.Perm (List.range mags.length)) (hnd : mags.Nodup) :
    ∀ t, t < mags.length →
      p.getD ((id0 (p.map (fun k => mags.getD k 0))).getD t 0) 0 =
        (id0 mags).getD t 0 := by
  intro t ht
  set mags' := p.map (fun k => mags.getD k 0) with hm'
  have hplen : p.length = mags.length := by simpa using hp.length_eq
  have hm'len : mags'.length = mags.length := by
    rw [hm', List.length_map, hplen]
  have hAlen : (argsort_heapsort mags 0).length = mags.length :=
    argsort_heapsort_length mags 0
  have hA'len : (argsort_heapsort mags' 0).length = mags.length := by
    rw [argsort_heapsort_length, hm'len]
  unfold id0 flipud
  rw [getD_reverse _ t (by omega), getD_reverse _ t (by omega), hAlen, hA'len]
  exact argsort_align mags p hp hnd (mags.length - 1 - t) (by omega)

/-- With pairwise-distinct magnitudes, permuting the catalog rows leaves
the sorted working data of the engine unchanged. -/
theorem declusterData_align (mags lons lats years : List ℚ) (cfg : GKConfig)
    (dist : ℚ → ℚ → ℚ → ℚ → ℚ) (p : List ℕ)
    (hp : p.Perm (List.range mags.length)) (hnd : mags.Nodup) :
    declusterData (p.map (fun k => mags.getD k 0)) (p.map (fun k => lons.getD k 0))
      (p.map (fun k => lats.getD k 0)) (p.map (fun k => years.getD k 0)) cfg dist =
    declusterData mags lons lats years cfg dist := by
  have hplen : p.length = mags.length := by simpa using hp.length_eq
  have hm'len : (p.map (fun k => mags.getD k 0)).length = mags.length := by
    rw [List.length_map, hplen]
  have hid0'len : (id0 (p.map (fun k => mags.getD k 0))).length = mags.length := by
    rw [id0_length, hm'len]
  have hid0len : (id0 mags).length = mags.length := id0_length mags
  have hid0'perm : (id0 (p.map (fun k => mags.getD k 0))).Perm
      (List.range mags.length) := by
    have := id0_perm (p.map (fun k => mags.getD k 0))
    rwa [hm'len] at this
  -- a permuted column read in the permuted order is the original read
  have hacc : ∀ xs : List ℚ,
      sortedAccess (p.map (fun k => xs.getD k 0))
        (id0 (p.map (fun k => mags.getD k 0))) =
      sortedAccess xs (id0 mags) := by
    intro xs
    funext j
    unfold sortedAccess
    by_cases hj : j < mags.length
    · rw [if_pos (by omega), if_pos (by omega)]
      have hb : (id0 (p.map (fun k => mags.getD k 0))).getD j 0 < p.length := by
        have := perm_range_getD_lt _ mags.length j hid0'perm (by omega)
        omega
      rw [map_getD_lt' _ _ _ _ hb, id0_align mags p hp hnd j hj]
    · rw [if_neg (by omega), if_neg (by omega)]
  -- a permuted window column is the permuted read of the window column
  have hwin : ∀ g : ℚ → ℚ,
      (p.map (fun k => mags.getD k 0)).map g =
        p.map (fun k => (mags.map g).getD k 0) := by
    intro g
    rw [List.map_map]
    refine List.map_congr_left ?_
    intro k hk
    have hkn : k < mags.length :=
      List.mem_range.mp (hp.mem_iff.mp hk)
    exact (getD_map_q g mags k hkn).symm
  unfold declusterData
  dsimp only
  rw [hm'len, hacc lons, hacc lats, hacc years]
  rw [hwin (fun m => (windowCalcQ cfg.time_distance_window cfg.time_cutoff m).1),
    hwin (fun m => (windowCalcQ cfg.time_distance_window cfg.time_cutoff m).2),
    hacc (mags.map (fun m => (windowCalcQ cfg.time_distance_window cfg.time_cutoff m).1)),
    hacc (mags.map (fun m => (windowCalcQ cfg.time_distance_window cfg.time_cutoff m).2))]

/-- C5 (amended).  For catalogs with pairwise-distinct magnitudes, running
the engine on a row-permuted catalog yields the outputs of the original run
reordered to match the new row order (hence the same multiset of
(event, cluster id, shock type) associations).  With magnitude ties this
fails — see the counterexample — because the heapsort tie order decides
which tied event seeds the cluster. -/
theorem claim_C5 (mags lons lats years : List ℚ) (cfg : GKConfig)
    (dist : ℚ → ℚ → ℚ → ℚ → ℚ) (p : List ℕ)
    (hp : p.Perm (List.range mags.length)) (hnd : mags.Nodup) :
    ∀ j, j < mags.length →
      (declusterRun (p.map (fun k => mags.getD k 0)) (p.map (fun k => lons.getD k 0))
          (p.map (fun k => lats.getD k 0)) (p.map (fun k => years.getD k 0))
          cfg dist).1.getD j 0 =
        (declusterRun mags lons lats years cfg dist).1.getD (p.getD j 0) 0 ∧
      (declusterRun (p.map (fun k => mags.getD k 0)) (p.map (fun k => lons.getD k 0))
          (p.map (fun k => lats.getD k 0)) (p.map (fun k => years.getD k 0))
          cfg dist).2.getD j 0 =
        (declusterRun mags lons lats years cfg dist).2.getD (p.getD j 0) 0 := by
  intro j hj
  set mags' := p.map (fun k => mags.getD k 0) with hm'
  have hplen : p.length = mags.length := by simpa using hp.length_eq
  have hm'len : mags'.length = mags.length := by rw [hm', List.length_map, hplen]
  have hid0'perm : (id0 mags').Perm (List.range mags.length) := by
    have := id0_perm mags'
    rwa [hm'len] at this
  have hid1'len : (argsort_heapsort (id0 mags') 0).length = mags.length := by
    rw [argsort_heapsort_length, id0_length, hm'len]
  have hid1len : (argsort_heapsort (id0 mags) 0).length = mags.length := by
    rw [argsort_heapsort_length, id0_length]
  have hid1'perm : (argsort_heapsort (id0 mags') 0).Perm
      (List.range mags.length) := by
    have := argsort_heapsort_perm (id0 mags') 0
    rwa [id0_length, hm'len] at this
  have hpj : p.getD j 0 < mags.length :=
    perm_range_getD_lt p mags.length j hp (by omega)
  -- the two unsort permutations are aligned by p
  set t := (argsort_heapsort (id0 mags') 0).getD j 0 with ht
  have htn : t < mags.length :=
    perm_range_getD_lt _ mags.length j hid1'perm (by omega)
  have hid0't : (id0 mags').getD t 0 = j :=
    argsort_of_perm_range (id0 mags') mags.length hid0'perm j hj
  have hpt : p.getD j 0 = (id0 mags).getD t 0 := by
    rw [← hid0't]
    exact id0_align mags p hp hnd t htn
  have hkey : (argsort_heapsort (id0 mags) 0).getD (p.getD j 0) 0 = t := by
    rw [hpt]
    exact argsort_of_perm_range' (id0 mags) mags.length (id0_perm mags) t htn
  -- both outputs read the same loop state at sorted position t
  have hdata := declusterData_align mags lons lats years cfg dist p hp hnd
  rw [← hm'] at hdata
  constructor
  · show (declusterRun mags' (p.map (fun k => lons.getD k 0))
        (p.map (fun k => lats.getD k 0)) (p.map (fun k => years.getD k 0))
        cfg dist).1.getD j 0 = _
    unfold declusterRun
    dsimp only
    have hb1 : j < (argsort_heapsort (id0 mags') 0).length := by omega
    have hb2 : p.getD j 0 < (argsort_heapsort (id0 mags) 0).length := by omega
    rw [hdata, map_getD_lt _ _ _ hb1, map_getD_lt _ _ _ hb2]
    rw [← ht, hkey, hm'len]
  · show (declusterRun mags' (p.map (fun k => lons.getD k 0))
        (p.map (fun k => lats.getD k 0)) (p.map (fun k => years.getD k 0))
        cfg dist).2.getD j 0 = _
    unfold declusterRun
    dsimp only
    have hb1 : j < (argsort_heapsort (id0 mags') 0).length := by omega
    have hb2 : p.getD j 0 < (argsort_heapsort (id0 mags) 0).length := by omega
    rw [hdata, map_getD_lt _ _ _ hb1, map_getD_lt _ _ _ hb2]
    rw [← ht, hkey, hm'len]

/-- Concrete engine runs on the fixtures, evaluated by simp/norm_num (the
heapsort steps, which are arithmetic-free, by kernel evaluation). -/
theorem catTie_run :
    GardnerKnopoffType1.decluster catTie cfgTie distZero = .ok ([1, 1], [0, 1]) := by
  have hr1 : List.range 1 = [0] := by decide
  have hr2 : List.range 2 = [0, 1] := by decide
  have hid0 : id0 [5, 5] = [0, 1] := by decide
  have hid1 : argsort_heapsort ([0, 1] : List ℕ) 0 = [0, 1] := by decide
  norm_num [GardnerKnopoffType1.decluster, catTie, cfgTie, distZero, declusterRun,
    declusterData, windowCalcQ, decimal_year, dayOfYear, hid0, hid1,
    sortedAccess, gkLoop, gkStep, gkInit, vsel, hr1, hr2, List.getD]

theorem catTieSwapped_run :
    GardnerKnopoffType1.decluster catTieSwapped cfgTie distZero =
      .ok ([1, 1], [0, -1]) := by
  have hr1 : List.range 1 = [0] := by decide
  have hr2 : List.range 2 = [0, 1] := by decide
  have hid0 : id0 [5, 5] = [0, 1] := by decide
  have hid1 : argsort_heapsort ([0, 1] : List ℕ) 0 = [0, 1] := by decide
  norm_num [GardnerKnopoffType1.decluster, catTieSwapped, cfgTie, distZero,
    declusterRun, declusterData, windowCalcQ, decimal_year, dayOfYear, hid0, hid1,
    sortedAccess, gkLoop, gkStep, gkInit, vsel, hr1, hr2, List.getD]

theorem catPair_run :
    GardnerKnopoffType1.decluster catPair cfgTie distZero = .ok ([1, 1], [0, 1]) := by
  have hr1 : List.range 1 = [0] := by decide
  have hr2 : List.range 2 = [0, 1] := by decide
  have hid0 : id0 [5, 4] = [0, 1] := by decide
  have hid1 : argsort_heapsort ([0, 1] : List ℕ) 0 = [0, 1] := by decide
  norm_num [GardnerKnopoffType1.decluster, catPair, cfgTie, distZero, declusterRun,
    declusterData, windowCalcQ, decimal_year, dayOfYear, hid0, hid1,
    sortedAccess, gkLoop, gkStep, gkInit, vsel, hr1, hr2, List.getD]

theorem catPairFs0_run :
    GardnerKnopoffType1.decluster catPair cfgFs0 distZero = .ok ([1, 1], [0, 1]) := by
  have hr1 : List.range 1 = [0] := by decide
  have hr2 : List.range 2 = [0, 1] := by decide
  have hid0 : id0 [5, 4] = [0, 1] := by decide
  have hid1 : argsort_heapsort ([0, 1] : List ℕ) 0 = [0, 1] := by decide
  norm_num [GardnerKnopoffType1.decluster, catPair, cfgFs0, distZero, declusterRun,
    declusterData, windowCalcQ, decimal_year, dayOfYear, hid0, hid1,
    sortedAccess, gkLoop, gkStep, gkInit, vsel, hr1, hr2, List.getD]

/-- C5 (counterexample).  Two co-located magnitude-5 events one day apart:
in the original row order event 0 seeds and event 1 is its aftershock; in
the swapped order event 1 (now row 0) seeds and event 0 becomes a
foreshock.  The association multisets
`{(event 1, 1, 0), (event 0, 1, −1)}` (swapped run, rows mapped back
through the permutation `[1, 0]`) and `{(event 0, 1, 0), (event 1, 1, 1)}`
(original run) differ, so the outputs are not a reordering of each other:
permutation equivariance fails on magnitude ties. -/
theorem claim_C5_counterexample :
    GardnerKnopoffType1.decluster catTie cfgTie distZero = .ok ([1, 1], [0, 1]) ∧
    GardnerKnopoffType1.decluster catTieSwapped cfgTie distZero =
      .ok ([1, 1], [0, -1]) ∧
    ¬ ([((1 : ℕ), ((1 : ℤ), (0 : ℤ))), ((0 : ℕ), ((1 : ℤ), (-1 : ℤ)))].Perm
        [((0 : ℕ), ((1 : ℤ), (0 : ℤ))), ((1 : ℕ), ((1 : ℤ), (1 : ℤ)))]) :=
  ⟨catTie_run, catTieSwapped_run, by decide⟩

/-- Witness for C5 (amended) at the distinct-magnitude catalog `[5, 4]`
permuted by `[1, 0]`. -/
theorem claim_C5_witness :
    ([1, 0] : List ℕ).Perm (List.range ([5, 4] : List ℚ).length) ∧
    ([5, 4] : List ℚ).Nodup ∧ 0 < ([5, 4] : List ℚ).length ∧
    ((declusterRun (([1, 0] : List ℕ).map (fun k => ([5, 4] : List ℚ).getD k 0))
        (([1, 0] : List ℕ).map (fun k => ([0, 0] : List ℚ).getD k 0))
        (([1, 0] : List ℕ).map (fun k => ([0, 0] : List ℚ).getD k 0))
        (([1, 0] : List ℕ).map (fun k => ([2000, 2001] : List ℚ).getD k 0))
        cfgTie distZero).1.getD 0 0 =
      (declusterRun [5, 4] [0, 0] [0, 0] [2000, 2001] cfgTie distZero).1.getD
        (([1, 0] : List ℕ).getD 0 0) 0 ∧
    (declusterRun (([1, 0] : List ℕ).map (fun k => ([5, 4] : List ℚ).getD k 0))
        (([1, 0] : List ℕ).map (fun k => ([0, 0] : List ℚ).getD k 0))
        (([1, 0] : List ℕ).map (fun k => ([0, 0] : List ℚ).getD k 0))
        (([1, 0] : List ℕ).map (fun k => ([2000, 2001] : List ℚ).getD k 0))
        cfgTie distZero).2.getD 0 0 =
      (declusterRun [5, 4] [0, 0] [0, 0] [2000, 2001] cfgTie distZero).2.getD
        (([1, 0] : List ℕ).getD 0 0) 0) :=
  ⟨by decide, by decide, by decide,
    claim_C5 [5, 4] [0, 0] [0, 0] [2000, 2001] cfgTie distZero [1, 0]
      (by decide) (by decide) 0 (by decide)⟩

/-- Witness for C2 at the concrete two-event catalog `catPair`. -/
theorem claim_C2_witness :
    GardnerKnopoffType1.decluster catPair cfgTie distZero = .ok ([1, 1], [0, 1]) ∧
    (0 : ℚ) ≤ cfgTie.fs_time_prop ∧
    (([1, 1] : List ℤ).zip ([0, 1] : List ℤ)).countP
      (fun pr => decide (pr = ((1 : ℤ), (0 : ℤ)))) = 1 :=
  ⟨catPair_run, by norm_num [cfgTie],
    claim_C2 catPair cfgTie distZero ([1, 1], [0, 1]) catPair_run
      (by norm_num [cfgTie]) (fun m => by norm_num [cfgTie]) (fun x y => rfl)
      1 (by decide) (by decide)⟩

/-- Witness for C6 at the concrete two-event catalog `catPair` with
`fs_time_prop = 0`. -/
theorem claim_C6_witness :
    cfgFs0.fs_time_prop = 0 ∧
    GardnerKnopoffType1.decluster catPair cfgFs0 distZero = .ok ([1, 1], [0, 1]) ∧
    ∀ s ∈ ([0, 1] : List ℤ), s ≠ -1 :=
  ⟨rfl, catPairFs0_run,
    claim_C6 catPair cfgFs0 distZero ([1, 1], [0, 1]) rfl catPairFs0_run⟩

/-- Witness for C8 at the concrete two-event catalog `catPair`. -/
theorem claim_C8_witness :
    GardnerKnopoffType1.decluster catPair cfgTie distZero = .ok ([1, 1], [0, 1]) ∧
    ∀ k, ([1, 1] : List ℤ).getD k 0 = 0 → ([0, 1] : List ℤ).getD k 0 = 0 :=
  ⟨catPair_run, claim_C8 catPair cfgTie distZero ([1, 1], [0, 1]) catPair_run⟩

/-- The compute-then-overwrite time array of `GardnerKnopoffWindow._calc`
is the elementwise piecewise formula. -/
theorem GardnerKnopoffWindow_calc_time_eq (ms : List ℝ) :
    (GardnerKnopoffWindow_calc ms).2 =
      ms.map (fun m =>
        if m < 6.5 then (10 : ℝ) ^ (0.5409 * m - 0.547)
        else (10 : ℝ) ^ (0.032 * m + 2.7389)) := by
  induction ms with
  | nil => rfl
  | cons a ms ih =>
    simp only [GardnerKnopoffWindow_calc, List.map_cons, List.zip_cons_cons,
      List.map] at ih ⊢
    exact congrArg _ ih

/-- The compute-then-overwrite time array of `GruenthalWindow._calc`
is the elementwise piecewise formula. -/
theorem GruenthalWindow_calc_time_eq (ms : List ℝ) :
    (GruenthalWindow_calc ms).2 =
      ms.map (fun m =>
        if 6.5 ≤ m then (10 : ℝ) ^ (2.8 + 0.024 * m)
        else |Real.exp (-3.95 + Real.sqrt (0.62 + 17.32 * m))|) := by
  induction ms with
  | nil => rfl
  | cons a ms ih =>
    simp only [GruenthalWindow_calc, List.map_cons, List.zip_cons_cons,
      List.map] at ih ⊢
    exact congrArg _ ih

/-- Elementwise nonnegativity helper: every entry of a mapped list whose
function is nonnegative reads nonnegative through `getD · 0`. -/
theorem getD_map_nonneg (f : ℝ → ℝ) (hf : ∀ m, 0 ≤ f m) (ms : List ℝ) (i : ℕ) :
    0 ≤ (ms.map f).getD i 0 := by
  rcases lt_or_le i (ms.map f).length with h | h
  · rw [List.getD_eq_getElem _ _ h, List.getElem_map]
    exact hf _
  · rw [List.getD_eq_default _ _ h]

/-- Every time window any variant computes is nonnegative (positions out of
range read the default `0`). -/
theorem variant_time_nonneg (w : WindowVariant) (ms : List ℝ) (i : ℕ) :
    0 ≤ (variantCalc w ms).2.getD i 0 := by
  cases w with
  | gardnerKnopoff =>
    show 0 ≤ (GardnerKnopoffWindow_calc ms).2.getD i 0
    rw [GardnerKnopoffWindow_calc_time_eq]
    refine getD_map_nonneg _ (fun m => ?_) ms i
    split
    · positivity
    · positivity
  | gruenthal =>
    show 0 ≤ (GruenthalWindow_calc ms).2.getD i 0
    rw [GruenthalWindow_calc_time_eq]
    refine getD_map_nonneg _ (fun m => ?_) ms i
    split
    · positivity
    · positivity
  | uhrhammer =>
    refine getD_map_nonneg _ (fun m => ?_) ms i
    positivity

/-- Every space window any variant computes is nonnegative (in fact
positive in range; positions out of range read the default `0`).  This
backs the space-window hypothesis of the C2 theorem. -/
theorem variant_space_nonneg (w : WindowVariant) (ms : List ℝ) (i : ℕ) :
    0 ≤ (variantCalc w ms).1.getD i 0 := by
  cases w with
  | gardnerKnopoff =>
    refine getD_map_nonneg _ (fun m => ?_) ms i
    positivity
  | gruenthal =>
    refine getD_map_nonneg _ (fun m => ?_) ms i
    positivity
  | uhrhammer =>
    refine getD_map_nonneg _ (fun m => ?_) ms i
    positivity

/-- C4.  For every magnitude array and every configured time cutoff, each
time duration returned by the window strategy wrapper
(`BaseDistanceTimeWindow.__call__`) is at most the corresponding unclamped
duration from the variant's `_calc` — the clamp only shortens, never
lengthens — and when no cutoff is configured the durations are exactly the
unclamped values. -/
theorem claim_C4 (w : WindowVariant) (cutoff : Option ℝ) (ms : List ℝ) :
    ((windowCall w cutoff ms).2.length = (variantCalc w ms).2.length ∧
      ∀ i, (windowCall w cutoff ms).2.getD i 0 ≤ (variantCalc w ms).2.getD i 0) ∧
    (windowCall w none ms).2 = (variantCalc w ms).2 := by
  refine ⟨?_, rfl⟩
  match cutoff with
  | none => exact ⟨rfl, fun i => le_refl _⟩
  | some c =>
    simp only [windowCall]
    split
    · constructor
      · exact List.length_map _ _
      · intro i
        rcases lt_or_le i (variantCalc w ms).2.length with h | h
        · rw [List.getD_eq_getElem _ _ (by simpa using h),
            List.getD_eq_getElem _ _ h, List.getElem_map]
          calc min (max ((variantCalc w ms).2[i]) 0) c
              ≤ max ((variantCalc w ms).2[i]) 0 := min_le_left _ _
            _ = (variantCalc w ms).2[i] := by
                have h0 : 0 ≤ (variantCalc w ms).2[i] := by
                  have := variant_time_nonneg w ms i
                  rwa [List.getD_eq_getElem _ _ h] at this
                exact max_eq_left h0
        · rw [List.getD_eq_default _ _ (by simpa using h),
            List.getD_eq_default _ _ h]
    · exact ⟨rfl, fun i => le_refl _⟩

/-- C10.  A window strategy constructed with `time_cutoff = 0` behaves
identically to one constructed with no cutoff at all: `0` is falsy in
`if self.time_cutoff:`, so the clamp is skipped and the durations are
returned unclamped. -/
theorem claim_C10 (w : WindowVariant) (ms : List ℝ) :
    windowCall w (some 0) ms = windowCall w none ms := by
  simp [windowCall]

/-- C9.  `GardnerKnopoffWindow._calc` returns, elementwise with one result
per magnitude and no cross-event dependency, space radius
`10^(0.1238·m + 0.983)`, and time duration `10^(0.032·m + 2.7389)` when
`m ≥ 6.5` and `10^(0.5409·m − 0.547)` otherwise. -/
theorem claim_C9 (ms : List ℝ) :
    (GardnerKnopoffWindow_calc ms).1.length = ms.length ∧
    (GardnerKnopoffWindow_calc ms).2.length = ms.length ∧
    ∀ i, i < ms.length →
      (GardnerKnopoffWindow_calc ms).1.getD i 0 =
        (10 : ℝ) ^ (0.1238 * ms.getD i 0 + 0.983) ∧
      (GardnerKnopoffWindow_calc ms).2.getD i 0 =
        (if 6.5 ≤ ms.getD i 0 then (10 : ℝ) ^ (0.032 * ms.getD i 0 + 2.7389)
         else (10 : ℝ) ^ (0.5409 * ms.getD i 0 - 0.547)) := by
  refine ⟨List.length_map _ _, ?_, ?_⟩
  · rw [GardnerKnopoffWindow_calc_time_eq]
    exact List.length_map _ _
  · intro i hi
    constructor
    · rw [List.getD_eq_getElem _ _ (by simpa [GardnerKnopoffWindow_calc] using hi),
        List.getD_eq_getElem _ _ hi]
      simp [GardnerKnopoffWindow_calc]
    · rw [GardnerKnopoffWindow_calc_time_eq,
        List.getD_eq_getElem _ _ (by simpa using hi),
        List.getD_eq_getElem _ _ hi, List.getElem_map]
      rcases lt_or_le (ms[i]) (6.5 : ℝ) with h | h
      · rw [if_pos h, if_neg (not_le.mpr h)]
      · rw [if_neg (not_lt.mpr h), if_pos h]

/-- Witness for C9 at the concrete array `[7]`. -/
theorem claim_C9_witness :
    (0 : ℕ) < ([7] : List ℝ).length ∧
    ((GardnerKnopoffWindow_calc [7]).1.length = ([7] : List ℝ).length ∧
     (GardnerKnopoffWindow_calc [7]).2.length = ([7] : List ℝ).length ∧
     ∀ i, i < ([7] : List ℝ).length →
       (GardnerKnopoffWindow_calc [7]).1.getD i 0 =
         (10 : ℝ) ^ (0.1238 * ([7] : List ℝ).getD i 0 + 0.983) ∧
       (GardnerKnopoffWindow_calc [7]).2.getD i 0 =
         (if 6.5 ≤ ([7] : List ℝ).getD i 0
          then (10 : ℝ) ^ (0.032 * ([7] : List ℝ).getD i 0 + 2.7389)
          else (10 : ℝ) ^ (0.5409 * ([7] : List ℝ).getD i 0 - 0.547))) :=
  ⟨by decide, claim_C9 [7]⟩

/-- C3.  The engine raises the schema `ValueError` exactly when the catalog
supplies neither all three of the `year`, `month`, `day` columns nor a
`time` column; the error is fatal: an `error` result carries no clustering
arrays at all. -/
theorem claim_C3 (cat : Catalogue) (cfg : GKConfig)
    (dist : ℚ → ℚ → ℚ → ℚ → ℚ) :
    (∃ e, GardnerKnopoffType1.decluster cat cfg dist = .error e) ↔
      (¬(cat.year.isSome ∧ cat.month.isSome ∧ cat.day.isSome) ∧ cat.time = none) := by
  unfold GardnerKnopoffType1.decluster
  split
  · rename_i h
    simp [h.1, h.2.1, h.2.2]
  · rename_i h
    cases htime : cat.time with
    | some ts => simp [htime, h]
    | none => simp [htime, h]

end SeismoStats
